import Mathlib

/-!
# Verification of the competitor-analysis crawler core

Shallow embedding of the crawler sources under `src/Backend/` (the URL
normalizer shared by `crawler/python_web_crawler_products.py` and
`crawler/ai_crawler.py`, the crawl worker loop of `robust_crawl`/`crawl`,
the keyword crawler's politeness pacing, the Playwright render fetch, and
the two sitemap resolvers), together with proofs and refutations of the
specified properties.

Python strings are modelled as lists of code points (`List Nat`).  The
pieces of `urllib.parse` the sources call (`urlparse`, `urljoin`,
`urlunparse`, `parse_qsl`) are embedded following CPython's
`Lib/urllib/parse.py`; percent-decoding is modelled at the byte level
(exact for ASCII, which is all the claims exercise), and the IPv6
bracket-validity errors of `urlsplit` are not modelled.
-/

/-- A Python string, as a list of code points. -/
abbrev PyStr := List Nat

/-- Convert a Lean string literal into the code-point model. -/
def pystr (s : String) : PyStr := s.data.map Char.toNat

/-- Model of `str.lower` for one code point (ASCII range, as used by the
normalizer on schemes, hosts and query keys). -/
def lowerChar (c : Nat) : Nat := if 65 ≤ c ∧ c ≤ 90 then c + 32 else c

/-- Model of `str.lower`. -/
def pyLower (s : PyStr) : PyStr := s.map lowerChar

def isAlphaCode (c : Nat) : Bool := (65 ≤ c ∧ c ≤ 90) || (97 ≤ c ∧ c ≤ 122)

def isDigitCode (c : Nat) : Bool := 48 ≤ c ∧ c ≤ 57

/-- CPython `scheme_chars`: letters, digits, `+`, `-`, `.`. -/
def isSchemeChar (c : Nat) : Bool := isAlphaCode c || isDigitCode c || c == 43 || c == 45 || c == 46

/-- `s.split(c, 1)`: the part before the first occurrence of `c`, and the
part after it (`none` when `c` does not occur). -/
def splitFirst (c : Nat) : PyStr → PyStr × Option PyStr
  | [] => ([], none)
  | a :: rest =>
    if a = c then ([], some rest)
    else
      let r := splitFirst c rest
      (a :: r.1, r.2)

/-- `u.split('#', 1)[0]`. -/
def stripFragment (s : PyStr) : PyStr := (splitFirst 35 s).1

/-- Longest prefix avoiding the delimiter set, and the remainder. -/
def spanNotMem (delims : List Nat) : PyStr → PyStr × PyStr
  | [] => ([], [])
  | a :: rest =>
    if a ∈ delims then ([], a :: rest)
    else
      let r := spanNotMem delims rest
      (a :: r.1, r.2)

/-- `str.split(sep)` for a one-character separator (Python semantics:
the empty string splits to `['']`). -/
def splitAllChar (c : Nat) : PyStr → List PyStr
  | [] => [[]]
  | a :: rest =>
    let r := splitAllChar c rest
    if a = c then [] :: r
    else
      match r with
      | h :: t => (a :: h) :: t
      | [] => [[a]]

/-- `sep.join(parts)` for a one-character separator. -/
def joinChar (c : Nat) : List PyStr → PyStr
  | [] => []
  | [x] => x
  | x :: rest => x ++ c :: joinChar c rest

/-- The scheme-splitting step of CPython `urlsplit`: the prefix before the
first `:` becomes the (lower-cased) scheme when it is a valid scheme token;
otherwise the default scheme is kept. -/
def splitScheme (dflt : PyStr) (s : PyStr) : PyStr × PyStr :=
  match splitFirst 58 s with
  | (c0 :: pre, some post) =>
    if isAlphaCode c0 ∧ (c0 :: pre).all isSchemeChar then (pyLower (c0 :: pre), post)
    else (dflt, s)
  | _ => (dflt, s)

/-- The netloc step of CPython `urlsplit`: after a leading `//`, the netloc
runs until the next `/`, `?` or `#`. -/
def splitNetloc (s : PyStr) : PyStr × PyStr :=
  match s with
  | 47 :: 47 :: rest => spanNotMem [47, 63, 35] rest
  | _ => ([], s)

structure UrlSplitRes where
  scheme : PyStr
  netloc : PyStr
  path : PyStr
  query : PyStr
  fragment : PyStr
deriving Repr, DecidableEq

/-- Model of CPython `urllib.parse.urlsplit` (scheme, `//`-netloc, fragment,
query; bracket validation not modelled). -/
def pyUrlsplit (dflt : PyStr) (s : PyStr) : UrlSplitRes :=
  let sr := splitScheme dflt s
  let nr := splitNetloc sr.2
  let fr := splitFirst 35 nr.2
  let qr := splitFirst 63 fr.1
  ⟨sr.1, nr.1, qr.1, qr.2.getD [], fr.2.getD []⟩

/-- The part of `url` after its last `/` (Python `url[url.rfind('/'):]`
without the slash itself). -/
def lastSeg (url : PyStr) : PyStr := (url.reverse.takeWhile (fun c => c ≠ 47)).reverse

/-- CPython `_splitparams`: split `;params` off the last path segment. -/
def pySplitParams (url : PyStr) : PyStr × PyStr :=
  if 47 ∈ url then
    match splitFirst 59 (lastSeg url) with
    | (pre, some post) => ((url.take (url.length - (lastSeg url).length)) ++ pre, post)
    | (_, none) => (url, [])
  else
    match splitFirst 59 url with
    | (pre, some post) => (pre, post)
    | (_, none) => (url, [])

/-- CPython `uses_params`. -/
def usesParams : List PyStr :=
  [pystr "", pystr "ftp", pystr "hdl", pystr "prospero", pystr "http", pystr "imap",
   pystr "https", pystr "shttp", pystr "rtsp", pystr "rtspu", pystr "sip", pystr "sips",
   pystr "mms", pystr "sftp", pystr "tel"]

structure UrlParseRes where
  scheme : PyStr
  netloc : PyStr
  path : PyStr
  params : PyStr
  query : PyStr
  fragment : PyStr
deriving Repr, DecidableEq

/-- Model of CPython `urllib.parse.urlparse`. -/
def pyUrlparse (dflt : PyStr) (s : PyStr) : UrlParseRes :=
  let r := pyUrlsplit dflt s
  let pp := if r.scheme ∈ usesParams ∧ 59 ∈ r.path then pySplitParams r.path else (r.path, [])
  ⟨r.scheme, r.netloc, pp.1, pp.2, r.query, r.fragment⟩

/-- Model of CPython `urlunsplit`. -/
def pyUrlunsplit (scheme netloc url query fragment : PyStr) : PyStr :=
  let url := if netloc ≠ [] ∨ url.take 2 = [47, 47] then
      (47 :: 47 :: netloc) ++ (if url ≠ [] ∧ url.take 1 ≠ [47] then 47 :: url else url)
    else url
  let url := if query ≠ [] then url ++ 63 :: query else url
  let url := if fragment ≠ [] then url ++ 35 :: fragment else url
  if scheme ≠ [] then scheme ++ 58 :: url else url

/-- Model of CPython `urlunparse`. -/
def pyUrlunparse (scheme netloc path params query fragment : PyStr) : PyStr :=
  pyUrlunsplit scheme netloc (if params ≠ [] then path ++ 59 :: params else path) query fragment

def hexVal (c : Nat) : Option Nat :=
  if 48 ≤ c ∧ c ≤ 57 then some (c - 48)
  else if 65 ≤ c ∧ c ≤ 70 then some (c - 55)
  else if 97 ≤ c ∧ c ≤ 102 then some (c - 87)
  else none

/-- Model of `urllib.parse.unquote` at the byte level: `%HH` with two hex
digits decodes to the corresponding code point (exact for ASCII; multi-byte
UTF-8 sequences are out of scope of every claim). -/
def pyUnquote : PyStr → PyStr
  | [] => []
  | 37 :: h1 :: h2 :: rest =>
    match hexVal h1, hexVal h2 with
    | some a, some b => (16 * a + b) :: pyUnquote rest
    | _, _ => 37 :: pyUnquote (h1 :: h2 :: rest)
  | c :: rest => c :: pyUnquote rest

/-- `unquote_plus`: `+` becomes a space, then percent-decoding. -/
def unquotePlus (s : PyStr) : PyStr := pyUnquote (s.map fun c => if c = 43 then 32 else c)

/-- Model of `urllib.parse.parse_qsl(qs, keep_blank_values=True)` with the
modern single separator `&`: empty chunks are dropped, each chunk splits at
its first `=` (a chunk without `=` keeps a blank value), and both name and
value are `unquote_plus`-decoded. -/
def parseQsl (qs : PyStr) : List (PyStr × PyStr) :=
  ((splitAllChar 38 qs).filter (fun nv => nv ≠ [])).map fun nv =>
    match splitFirst 61 nv with
    | (k, some v) => (unquotePlus k, unquotePlus v)
    | (k, none) => (unquotePlus k, [])

/-- The tracking-parameter denylist test of `normalize_url`:
`k.lower().startswith('utm_') or k.lower() in ('fbclid', 'gclid', 'icid')`. -/
def isTrackingKey (k : PyStr) : Bool :=
  (pystr "utm_").isPrefixOf (pyLower k) ||
    (pyLower k = pystr "fbclid" || pyLower k = pystr "gclid" || pyLower k = pystr "icid")

def filterTracking (l : List (PyStr × PyStr)) : List (PyStr × PyStr) :=
  l.filter fun kv => !(isTrackingKey kv.1)

/-- `'&'.join(f'{k}={v}' for k, v in pairs)`. -/
def joinPairs (l : List (PyStr × PyStr)) : PyStr :=
  joinChar 38 (l.map fun kv => kv.1 ++ 61 :: kv.2)

/-- CPython `uses_relative`. -/
def usesRelative : List PyStr :=
  [pystr "", pystr "ftp", pystr "http", pystr "gopher", pystr "nntp", pystr "imap",
   pystr "wais", pystr "file", pystr "https", pystr "shttp", pystr "mms",
   pystr "prospero", pystr "rtsp", pystr "rtspu", pystr "sftp", pystr "svn",
   pystr "svn+ssh", pystr "ws", pystr "wss"]

/-- CPython `uses_netloc`. -/
def usesNetloc : List PyStr :=
  [pystr "", pystr "ftp", pystr "http", pystr "gopher", pystr "nntp", pystr "telnet",
   pystr "imap", pystr "wais", pystr "file", pystr "mms", pystr "https", pystr "shttp",
   pystr "snews", pystr "prospero", pystr "rtsp", pystr "rtspu", pystr "rsync",
   pystr "svn", pystr "svn+ssh", pystr "sftp", pystr "nfs", pystr "git",
   pystr "git+ssh", pystr "ws", pystr "wss", pystr "itms-services"]

/-- `segments[1:-1] = filter(None, segments[1:-1])` from CPython `urljoin`. -/
def filterMiddle : List PyStr → List PyStr
  | [] => []
  | [x] => [x]
  | x :: rest => x :: (rest.dropLast.filter (fun s => s ≠ [])) ++ [rest.getLastD []]

/-- The dot-segment resolution loop of CPython `urljoin`. -/
def resolveSegs (segments : List PyStr) : List PyStr :=
  let resolved := segments.foldl (fun acc seg =>
    if seg = pystr ".." then acc.dropLast
    else if seg = pystr "." then acc
    else acc ++ [seg]) []
  if segments.getLastD [] = pystr "." ∨ segments.getLastD [] = pystr ".." then
    resolved ++ [[]]
  else resolved

/-- Model of CPython `urllib.parse.urljoin`. -/
def pyUrljoin (base url : PyStr) : PyStr :=
  if base = [] then url
  else if url = [] then base
  else
    let b := pyUrlparse [] base
    let r := pyUrlparse b.scheme url
    if r.scheme ≠ b.scheme ∨ r.scheme ∉ usesRelative then url
    else
      let step : Option PyStr :=
        if r.scheme ∈ usesNetloc then
          (if r.netloc ≠ [] then none else some b.netloc)
        else some r.netloc
      match step with
      | none => pyUrlunparse r.scheme r.netloc r.path r.params r.query r.fragment
      | some netloc =>
        if r.path = [] ∧ r.params = [] then
          let query := if r.query = [] then b.query else r.query
          pyUrlunparse r.scheme netloc b.path b.params query r.fragment
        else
          let baseParts := splitAllChar 47 b.path
          let baseParts := if baseParts.getLastD [] ≠ [] then baseParts.dropLast else baseParts
          let segments :=
            if r.path.take 1 = [47] then splitAllChar 47 r.path
            else filterMiddle (baseParts ++ splitAllChar 47 r.path)
          let joined := joinChar 47 (resolveSegs segments)
          let path := if joined = [] then [47] else joined
          pyUrlunparse r.scheme netloc path r.params r.query r.fragment

/-- `path.rstrip('/')`. -/
def rstripSlash (p : PyStr) : PyStr := (p.reverse.dropWhile (fun c => c = 47)).reverse

/-- The path step of `normalize_url`: `path = parsed.path or '/'`, then
`if path != '/' and path.endswith('/'): path = path.rstrip('/')`. -/
def normSlashPath (p : PyStr) : PyStr :=
  let p := if p = [] then [47] else p
  if p ≠ [47] ∧ p.getLastD 0 = 47 then rstripSlash p else p

/-- `if base: u = urljoin(base, u)` (a `None` or empty base leaves `u`). -/
def resolveRaw (u : PyStr) (base : Option PyStr) : PyStr :=
  match base with
  | some b => if b ≠ [] then pyUrljoin b u else u
  | none => u

/-- The common body of the two identical `normalize_url` copies
(`python_web_crawler_products.py:59` and `ai_crawler.py:68`): resolve
against the base, strip the fragment, parse, default/lower the scheme,
lower the netloc, apply the trailing-slash rule, filter tracking query
pairs and reassemble.  Returns the reassembled URL and the netloc. -/
def normalizeCore (u : PyStr) (base : Option PyStr) : PyStr × PyStr :=
  let u2 := stripFragment (resolveRaw u base)
  let p := pyUrlparse [] u2
  let scheme := pyLower (if p.scheme = [] then pystr "http" else p.scheme)
  let netloc := pyLower p.netloc
  let path := normSlashPath p.path
  let query := joinPairs (filterTracking (parseQsl p.query))
  (pyUrlunparse scheme netloc path [] query [], netloc)

/-- `normalize_url` of `python_web_crawler_products.py` (returns `None` for
falsy input and when the resolved URL has an empty netloc). -/
def normalizeUrlProducts (u : PyStr) (base : Option PyStr) : Option PyStr :=
  if u = [] then none
  else
    let r := normalizeCore u base
    if r.2 = [] then none else some r.1

/-- `normalize_url` of `ai_crawler.py`: same body, but no empty-netloc
check — the reassembled URL is returned unconditionally. -/
def normalizeUrlAi (u : PyStr) (base : Option PyStr) : Option PyStr :=
  if u = [] then none else some (normalizeCore u base).1

example : normalizeUrlProducts (pystr "http://x.com/a/") none
    = some (pystr "http://x.com/a") := by decide

example : normalizeUrlProducts (pystr "http://x.com/") none
    = some (pystr "http://x.com/") := by decide

example : normalizeUrlProducts (pystr "http://x.com/foo//") none
    = some (pystr "http://x.com/foo") := by decide

example : normalizeUrlProducts (pystr "http://x.com//") none
    = some (pystr "http://x.com") := by decide

example : normalizeUrlProducts (pystr "http://x.com") none
    = some (pystr "http://x.com/") := by decide

example : normalizeUrlProducts (pystr "http://x.com/a?utm_source=x&b=1") none
    = some (pystr "http://x.com/a?b=1") := by decide

example : normalizeUrlAi (pystr "/a") none = some (pystr "http:/a") := by decide

example : normalizeUrlProducts (pystr "/a") none = none := by decide

example : normalizeUrlProducts (pystr "a/b") (some (pystr "http://x.com/c/d")) =
    some (pystr "http://x.com/c/a/b") := by decide

example : normalizeUrlProducts (pystr "http://x.com/page?utm_campaign=x") none
    = normalizeUrlProducts (pystr "http://x.com/page") none := by decide

/-! ## Basic list and character lemmas -/

lemma lowerChar_idem (c : Nat) : lowerChar (lowerChar c) = lowerChar c := by
  unfold lowerChar
  split
  · split <;> omega
  · rfl

lemma pyLower_idem (s : PyStr) : pyLower (pyLower s) = pyLower s := by
  simp [pyLower, Function.comp_def, lowerChar_idem]

lemma lowerChar_not_upper (c : Nat) : ¬ (65 ≤ lowerChar c ∧ lowerChar c ≤ 90) := by
  unfold lowerChar
  split <;> omega

lemma pyLower_no_upper (s : PyStr) : ∀ c ∈ pyLower s, ¬ (65 ≤ c ∧ c ≤ 90) := by
  intro c hc
  simp only [pyLower, List.mem_map] at hc
  obtain ⟨a, -, rfl⟩ := hc
  exact lowerChar_not_upper a

lemma lowerChar_low_fixed {c d : Nat} (hd : d < 65) (h : c ≠ d) : lowerChar c ≠ d := by
  unfold lowerChar
  split <;> omega

lemma splitFirst_of_not_mem {c : Nat} {l : PyStr} (h : c ∉ l) : splitFirst c l = (l, none) := by
  induction l with
  | nil => rfl
  | cons a t ih =>
    simp only [List.mem_cons, not_or] at h
    simp [splitFirst, Ne.symm h.1, ih h.2]

lemma splitFirst_append {c : Nat} {l : PyStr} (r : PyStr) (h : c ∉ l) :
    splitFirst c (l ++ c :: r) = (l, some r) := by
  induction l with
  | nil => simp [splitFirst]
  | cons a t ih =>
    simp only [List.mem_cons, not_or] at h
    simp [splitFirst, Ne.symm h.1, ih h.2]

lemma splitFirst_fst_pref (c : Nat) (l : PyStr) : (splitFirst c l).1 <+: l := by
  induction l with
  | nil => simp [splitFirst]
  | cons a t ih =>
    by_cases hac : a = c
    · simp [splitFirst, hac]
    · obtain ⟨tl, htl⟩ := ih
      exact ⟨tl, by simp [splitFirst, hac, htl]⟩

lemma splitFirst_fst_not_mem (c : Nat) (l : PyStr) : c ∉ (splitFirst c l).1 := by
  induction l with
  | nil => simp [splitFirst]
  | cons a t ih =>
    by_cases hac : a = c
    · simp [splitFirst, hac]
    · simp [splitFirst, hac, ih, Ne.symm hac]

lemma spanNotMem_append {ds : List Nat} {l : PyStr} (r : PyStr)
    (hl : ∀ a ∈ l, a ∉ ds) (hr : r = [] ∨ ∃ a t, r = a :: t ∧ a ∈ ds) :
    spanNotMem ds (l ++ r) = (l, r) := by
  induction l with
  | nil =>
    rcases hr with rfl | ⟨a, t, rfl, ha⟩
    · rfl
    · simp [spanNotMem, ha]
  | cons a t ih =>
    have ha : a ∉ ds := hl a (by simp)
    simp [spanNotMem, ha, ih fun x hx => hl x (by simp [hx])]

lemma spanNotMem_fst (ds : List Nat) (l : PyStr) : ∀ a ∈ (spanNotMem ds l).1, a ∉ ds := by
  induction l with
  | nil => simp [spanNotMem]
  | cons a t ih =>
    by_cases ha : a ∈ ds
    · simp [spanNotMem, ha]
    · intro x hx
      rw [spanNotMem] at hx
      simp only [if_neg ha] at hx
      rcases List.mem_cons.mp hx with rfl | hx'
      · exact ha
      · exact ih x hx'

lemma head_dropWhile_not (f : Nat → Bool) (l : List Nat) :
    ∀ a, (l.dropWhile f).head? = some a → f a = false := by
  induction l with
  | nil => simp [List.dropWhile]
  | cons b t ih =>
    intro a ha
    rw [List.dropWhile] at ha
    by_cases hb : f b
    · exact ih a (by simpa [hb] using ha)
    · simp only [hb] at ha
      simp only [Bool.false_eq_true, if_false, List.head?_cons, Option.some.injEq] at ha
      subst ha
      simpa using hb

lemma rstripSlash_pref (p : PyStr) : rstripSlash p <+: p := by
  have h := List.dropWhile_suffix (l := p.reverse) (fun c => c = 47)
  have := List.reverse_prefix.mpr h
  simpa [rstripSlash] using this

lemma rstripSlash_no_trailing (p : PyStr) :
    rstripSlash p = [] ∨ (rstripSlash p).getLast? ≠ some 47 := by
  by_cases h : rstripSlash p = []
  · exact Or.inl h
  · refine Or.inr fun hc => ?_
    have h1 : (p.reverse.dropWhile (fun c => c = 47)).head? = some 47 := by
      rw [rstripSlash] at hc
      rw [← List.getLast?_reverse]
      simpa using hc
    have := head_dropWhile_not (fun c => c = 47) p.reverse 47 h1
    simp at this

lemma prefix_head {l₁ l₂ : PyStr} (h : l₁ <+: l₂) (hne : l₁ ≠ []) : l₂.head? = l₁.head? := by
  obtain ⟨t, rfl⟩ := h
  cases l₁ with
  | nil => exact absurd rfl hne
  | cons a s => rfl

lemma splitAllChar_of_not_mem {c : Nat} {l : PyStr} (h : c ∉ l) : splitAllChar c l = [l] := by
  induction l with
  | nil => rfl
  | cons a t ih =>
    simp only [List.mem_cons, not_or] at h
    rw [splitAllChar, ih h.2]
    simp [Ne.symm h.1]

lemma splitAllChar_append {c : Nat} {l : PyStr} (r : PyStr) (h : c ∉ l) :
    splitAllChar c (l ++ c :: r) = l :: splitAllChar c r := by
  induction l with
  | nil => simp [splitAllChar]
  | cons a t ih =>
    simp only [List.mem_cons, not_or] at h
    rw [List.cons_append, splitAllChar, ih h.2]
    simp [Ne.symm h.1]

lemma pyUnquote_cons_ne {c : Nat} (rest : PyStr) (h : c ≠ 37) :
    pyUnquote (c :: rest) = c :: pyUnquote rest := by
  cases rest with
  | nil => simp [pyUnquote]
  | cons b t =>
    cases t with
    | nil => simp [pyUnquote, h]
    | cons b2 t2 =>
      rw [pyUnquote.eq_def]
      simp [h]

lemma pyUnquote_of_good {s : PyStr} (h : 37 ∉ s) : pyUnquote s = s := by
  induction s with
  | nil => rfl
  | cons a t ih =>
    simp only [List.mem_cons, not_or] at h
    rw [pyUnquote_cons_ne t (Ne.symm h.1), ih h.2]

lemma map_plus_of_good {s : PyStr} (h43 : 43 ∉ s) :
    (s.map fun c => if c = 43 then 32 else c) = s := by
  induction s with
  | nil => rfl
  | cons a t ih =>
    simp only [List.mem_cons, not_or] at h43
    simp [Ne.symm h43.1, ih h43.2]

lemma unquotePlus_of_good {s : PyStr} (h37 : 37 ∉ s) (h43 : 43 ∉ s) : unquotePlus s = s := by
  rw [unquotePlus, map_plus_of_good h43]
  exact pyUnquote_of_good h37

lemma filterTracking_idem (l : List (PyStr × PyStr)) :
    filterTracking (filterTracking l) = filterTracking l := by
  simp [filterTracking, List.filter_filter]

/-! ## Query-string round-trip -/

/-- A query value that the reassembled `k=v&...` string re-parses verbatim:
no separator `&`, no escape `%`, no plus `+`, no `#` (which the fragment
strip would eat on a second pass). -/
def goodVal (v : PyStr) : Prop := 38 ∉ v ∧ 37 ∉ v ∧ 43 ∉ v ∧ 35 ∉ v

/-- A good key additionally has no `=` (keys never do after `parse_qsl`,
but percent-decoding can reintroduce one). -/
def goodKey (k : PyStr) : Prop := goodVal k ∧ 61 ∉ k

instance (v : PyStr) : Decidable (goodVal v) := by unfold goodVal; infer_instance

instance (k : PyStr) : Decidable (goodKey k) := by unfold goodKey; infer_instance

lemma parseQsl_joinPairs {l : List (PyStr × PyStr)}
    (h : ∀ kv ∈ l, goodKey kv.1 ∧ goodVal kv.2) : parseQsl (joinPairs l) = l := by
  induction l with
  | nil => rfl
  | cons kv rest ih =>
    obtain ⟨⟨⟨hk38, hk37, hk43, hk35⟩, hk61⟩, hv38, hv37, hv43, hv35⟩ := h kv (by simp)
    have hch : (38 : Nat) ∉ kv.1 ++ 61 :: kv.2 := by
      simp only [List.mem_append, List.mem_cons, not_or]
      exact ⟨hk38, by omega, hv38⟩
    have hchne : kv.1 ++ 61 :: kv.2 ≠ [] := by simp
    have hparse1 : splitFirst 61 (kv.1 ++ 61 :: kv.2) = (kv.1, some kv.2) :=
      splitFirst_append kv.2 hk61
    have hone : parseQsl (kv.1 ++ 61 :: kv.2) = [(kv.1, kv.2)] := by
      rw [parseQsl, splitAllChar_of_not_mem hch]
      simp [hchne, hparse1, unquotePlus_of_good hk37 hk43, unquotePlus_of_good hv37 hv43]
    cases rest with
    | nil =>
      have : joinPairs [kv] = kv.1 ++ 61 :: kv.2 := by
        rw [joinPairs]; simp [joinChar]
      rw [this, hone]
    | cons r0 rs =>
      have hjoin : joinPairs (kv :: r0 :: rs) =
          (kv.1 ++ 61 :: kv.2) ++ 38 :: joinPairs (r0 :: rs) := by
        rw [joinPairs, joinPairs]
        simp [joinChar]
      have ihr := ih fun x hx => h x (by simp [hx])
      rw [hjoin, parseQsl, splitAllChar_append _ hch]
      rw [parseQsl] at ihr
      simp only [List.filter_cons, List.map_cons]
      rw [show (decide ¬(kv.1 ++ 61 :: kv.2 = [])) = true by simp [hchne]]
      simp only [if_true, List.map_cons, hparse1]
      rw [ihr]
      simp [unquotePlus_of_good hk37 hk43, unquotePlus_of_good hv37 hv43]

/-! ## Component specifications of `urlsplit` / `urlparse` output -/

lemma lowerChar_alpha {c : Nat} (h : isAlphaCode c = true) : isAlphaCode (lowerChar c) = true := by
  simp only [isAlphaCode, Bool.or_eq_true, decide_eq_true_eq] at h ⊢
  unfold lowerChar
  split <;> omega

lemma lowerChar_schemeChar {c : Nat} (h : isSchemeChar c = true) :
    isSchemeChar (lowerChar c) = true := by
  simp only [isSchemeChar, isAlphaCode, isDigitCode, Bool.or_eq_true, decide_eq_true_eq,
    beq_iff_eq] at h ⊢
  unfold lowerChar
  split <;> omega

lemma pyLower_all_schemeChar {s : PyStr} (h : s.all isSchemeChar = true) :
    (pyLower s).all isSchemeChar = true := by
  simp only [List.all_eq_true] at h ⊢
  intro c hc
  simp only [pyLower, List.mem_map] at hc
  obtain ⟨a, ha, rfl⟩ := hc
  exact lowerChar_schemeChar (h a ha)

lemma all_schemeChar_not_mem {s : PyStr} {c : Nat} (h : s.all isSchemeChar = true)
    (hc : isSchemeChar c = false) : c ∉ s := by
  intro hmem
  rw [List.all_eq_true] at h
  have := h c hmem
  rw [this] at hc
  simp at hc

lemma lowerChar_keep_not_mem {c : Nat} {ds : List Nat} (h : c ∉ ds)
    (hds : ∀ d ∈ ds, d < 97) : lowerChar c ∉ ds := by
  unfold lowerChar
  split
  · rename_i hcr
    intro hmem
    have := hds _ hmem
    omega
  · exact h

lemma splitScheme_eq (dflt s : PyStr) :
    splitScheme dflt s =
      match splitFirst 58 s with
      | (c0 :: pre, some post) =>
        if isAlphaCode c0 ∧ (c0 :: pre).all isSchemeChar then (pyLower (c0 :: pre), post)
        else (dflt, s)
      | _ => (dflt, s) := rfl

lemma splitScheme_fst_spec (dflt s : PyStr) :
    (splitScheme dflt s).1 = dflt ∨
      ∃ pre, (splitScheme dflt s).1 = pyLower pre ∧ pre ≠ [] ∧
        isAlphaCode (pre.headD 0) = true ∧ pre.all isSchemeChar = true := by
  rcases hs : splitFirst 58 s with ⟨pre, post⟩
  cases post with
  | none =>
    have heq : splitScheme dflt s = (dflt, s) := by
      rw [splitScheme_eq, hs]
      cases pre <;> rfl
    rw [heq]
    exact Or.inl rfl
  | some p =>
    cases pre with
    | nil =>
      have heq : splitScheme dflt s = (dflt, s) := by
        rw [splitScheme_eq, hs]
      rw [heq]
      exact Or.inl rfl
    | cons c0 t =>
      have heq : splitScheme dflt s =
          if isAlphaCode c0 ∧ (c0 :: t).all isSchemeChar then (pyLower (c0 :: t), p)
          else (dflt, s) := by
        rw [splitScheme_eq, hs]
      rw [heq]
      by_cases hcond : isAlphaCode c0 ∧ (c0 :: t).all isSchemeChar
      · rw [if_pos hcond]
        exact Or.inr ⟨c0 :: t, rfl, by simp, by simpa using hcond.1, by simpa using hcond.2⟩
      · rw [if_neg hcond]
        exact Or.inl rfl

lemma splitNetloc_fst_chars (s : PyStr) :
    ∀ a ∈ (splitNetloc s).1, a ∉ ([47, 63, 35] : List Nat) := by
  unfold splitNetloc
  split
  · exact spanNotMem_fst _ _
  · simp

lemma spanNotMem_snd_spec (ds : List Nat) (l : PyStr) :
    (spanNotMem ds l).2 = [] ∨
      ∃ a t, (spanNotMem ds l).2 = a :: t ∧ a ∈ ds := by
  induction l with
  | nil => exact Or.inl rfl
  | cons a t ih =>
    by_cases ha : a ∈ ds
    · exact Or.inr ⟨a, t, by simp [spanNotMem, ha], ha⟩
    · simpa [spanNotMem, ha] using ih

lemma splitNetloc_snd_spec (s : PyStr) (h : (splitNetloc s).1 ≠ []) :
    (splitNetloc s).2 = [] ∨
      ∃ a t, (splitNetloc s).2 = a :: t ∧ a ∈ ([47, 63, 35] : List Nat) := by
  revert h
  unfold splitNetloc
  split
  · intro _
    exact spanNotMem_snd_spec _ _
  · intro h
    exact absurd rfl h

lemma splitFirst_fst_append {c : Nat} {l : PyStr} (r : PyStr) (h : c ∉ l) :
    (splitFirst c (l ++ r)).1 = l ++ (splitFirst c r).1 := by
  induction l with
  | nil => rfl
  | cons a t ih =>
    simp only [List.mem_cons, not_or] at h
    simp [splitFirst, Ne.symm h.1, ih h.2]

lemma joinChar_not_mem {c sep : Nat} (hsep : c ≠ sep) :
    ∀ parts : List PyStr, (∀ x ∈ parts, c ∉ x) → c ∉ joinChar sep parts := by
  intro parts
  induction parts with
  | nil => simp [joinChar]
  | cons x rest ih =>
    intro h
    cases rest with
    | nil =>
      simpa [joinChar] using h x (by simp)
    | cons y ys =>
      have hj : joinChar sep (x :: y :: ys) = x ++ sep :: joinChar sep (y :: ys) := rfl
      rw [hj]
      simp only [List.mem_append, List.mem_cons, not_or]
      exact ⟨h x (by simp), hsep, ih fun z hz => h z (by simp [hz])⟩

lemma joinPairs_not_mem {c : Nat} (h38 : c ≠ 38) (h61 : c ≠ 61)
    (l : List (PyStr × PyStr)) (h : ∀ kv ∈ l, c ∉ kv.1 ∧ c ∉ kv.2) :
    c ∉ joinPairs l := by
  refine joinChar_not_mem h38 _ ?_
  intro x hx
  simp only [List.mem_map] at hx
  obtain ⟨kv, hkv, rfl⟩ := hx
  obtain ⟨h1, h2⟩ := h kv hkv
  simp only [List.mem_append, List.mem_cons, not_or]
  exact ⟨h1, h61, h2⟩

lemma mem_of_pref {l₁ l₂ : PyStr} {c : Nat} (h : l₁ <+: l₂) (hc : c ∉ l₂) : c ∉ l₁ := by
  intro hm
  exact hc (h.subset hm)

lemma lastSeg_suffix (url : PyStr) : lastSeg url <:+ url := by
  have h1 := List.takeWhile_prefix (l := url.reverse) (fun c => decide (c ≠ 47))
  have h2 := List.reverse_suffix.mpr h1
  simpa [lastSeg] using h2

lemma pySplitParams_fst_pref (url : PyStr) : (pySplitParams url).1 <+: url := by
  unfold pySplitParams
  split
  · split
    · rename_i pre post hsp
      have hpre : pre <+: lastSeg url := by
        have h0 := splitFirst_fst_pref 59 (lastSeg url)
        rw [hsp] at h0
        exact h0
      obtain ⟨pref, hpref⟩ := lastSeg_suffix url
      obtain ⟨t, ht⟩ := hpre
      generalize hL : lastSeg url = L at hpref ht ⊢
      subst hpref
      simp only [List.length_append, Nat.add_sub_cancel, List.take_left]
      exact ⟨t, by rw [List.append_assoc, ht]⟩
    · exact List.prefix_rfl
  · split
    · rename_i pre post hsp
      have h0 := splitFirst_fst_pref 59 url
      rw [hsp] at h0
      exact h0
    · exact List.prefix_rfl

/-! ## Re-parsing an assembled URL -/

lemma pyUrlunsplit_eq (scheme netloc path query : PyStr) (hs0 : scheme ≠ [])
    (hn0 : netloc ≠ []) (hp : path = [] ∨ path.head? = some 47) :
    pyUrlunsplit scheme netloc path query [] =
      scheme ++ 58 :: 47 :: 47 ::
        (netloc ++ (path ++ (if query = [] then [] else 63 :: query))) := by
  unfold pyUrlunsplit
  have hcond : netloc ≠ [] ∨ path.take 2 = [47, 47] := Or.inl hn0
  have hpre : (if path ≠ [] ∧ path.take 1 ≠ [47] then 47 :: path else path) = path := by
    rcases hp with rfl | hp
    · simp
    · cases path with
      | nil => simp
      | cons a t =>
        simp only [List.head?_cons, Option.some.injEq] at hp
        subst hp
        simp [List.take]
  simp only [if_pos hcond, hpre, ne_eq, not_true_eq_false, if_false,
    List.nil_eq, reduceIte, hs0, not_false_eq_true, if_true]
  by_cases hq : query = []
  · simp [hq]
  · simp [hq, List.append_assoc]

lemma splitScheme_append {scheme : PyStr} (rest : PyStr) (hs0 : scheme ≠ [])
    (hs2 : isAlphaCode (scheme.headD 0) = true) (hs3 : scheme.all isSchemeChar = true)
    (hslow : pyLower scheme = scheme) :
    splitScheme [] (scheme ++ 58 :: rest) = (scheme, rest) := by
  have h58 : (58 : Nat) ∉ scheme := all_schemeChar_not_mem hs3 (by decide)
  cases scheme with
  | nil => exact absurd rfl hs0
  | cons c0 t =>
    have hsf : splitFirst 58 ((c0 :: t) ++ 58 :: rest) = (c0 :: t, some rest) :=
      splitFirst_append rest h58
    rw [splitScheme_eq, hsf]
    show (if isAlphaCode c0 ∧ (c0 :: t).all isSchemeChar then (pyLower (c0 :: t), rest)
        else ([], (c0 :: t) ++ 58 :: rest)) = (c0 :: t, rest)
    rw [if_pos ⟨by simpa using hs2, hs3⟩, hslow]

lemma splitNetloc_append {netloc : PyStr} (rest : PyStr)
    (hn : ∀ a ∈ netloc, a ∉ ([47, 63, 35] : List Nat))
    (hr : rest = [] ∨ ∃ a t, rest = a :: t ∧ a ∈ ([47, 63, 35] : List Nat)) :
    splitNetloc (47 :: 47 :: (netloc ++ rest)) = (netloc, rest) := by
  show spanNotMem [47, 63, 35] (netloc ++ rest) = (netloc, rest)
  exact spanNotMem_append rest hn hr

lemma qtail_spec (path query : PyStr) (hp : path = [] ∨ path.head? = some 47) :
    path ++ (if query = [] then [] else 63 :: query) = [] ∨
      ∃ a t, path ++ (if query = [] then [] else 63 :: query) = a :: t ∧
        a ∈ ([47, 63, 35] : List Nat) := by
  rcases hp with rfl | hp
  · by_cases hq : query = []
    · simp [hq]
    · right
      exact ⟨63, query, by simp [hq], by simp⟩
  · cases path with
    | nil => simp at hp
    | cons a t =>
      simp only [List.head?_cons, Option.some.injEq] at hp
      subst hp
      right
      exact ⟨47, t ++ (if query = [] then [] else 63 :: query), by simp, by simp⟩

theorem pyUrlsplit_assembled (scheme netloc path query : PyStr)
    (hs0 : scheme ≠ []) (hs2 : isAlphaCode (scheme.headD 0) = true)
    (hs3 : scheme.all isSchemeChar = true) (hslow : pyLower scheme = scheme)
    (hn : ∀ a ∈ netloc, a ∉ ([47, 63, 35] : List Nat)) (hn0 : netloc ≠ [])
    (hp : path = [] ∨ path.head? = some 47)
    (hp63 : 63 ∉ path) (hp35 : 35 ∉ path) (hq35 : 35 ∉ query) :
    pyUrlsplit [] (pyUrlunsplit scheme netloc path query []) =
      ⟨scheme, netloc, path, query, []⟩ := by
  rw [pyUrlunsplit_eq scheme netloc path query hs0 hn0 hp]
  simp only [pyUrlsplit]
  rw [splitScheme_append _ hs0 hs2 hs3 hslow]
  simp only
  rw [splitNetloc_append _ hn (qtail_spec path query hp)]
  simp only
  by_cases hq : query = []
  · subst hq
    simp only [reduceIte, List.append_nil]
    simp only [splitFirst_of_not_mem hp35, splitFirst_of_not_mem hp63]
    rfl
  · rw [if_neg hq]
    have h35 : (35 : Nat) ∉ path ++ 63 :: query := by
      simp only [List.mem_append, List.mem_cons, not_or]
      exact ⟨hp35, by omega, hq35⟩
    simp only [splitFirst_of_not_mem h35, splitFirst_append query hp63]
    rfl

theorem pyUrlparse_assembled (scheme netloc path query : PyStr)
    (hs0 : scheme ≠ []) (hs2 : isAlphaCode (scheme.headD 0) = true)
    (hs3 : scheme.all isSchemeChar = true) (hslow : pyLower scheme = scheme)
    (hn : ∀ a ∈ netloc, a ∉ ([47, 63, 35] : List Nat)) (hn0 : netloc ≠ [])
    (hp : path = [] ∨ path.head? = some 47)
    (hp63 : 63 ∉ path) (hp35 : 35 ∉ path) (hp59 : 59 ∉ path) (hq35 : 35 ∉ query) :
    pyUrlparse [] (pyUrlunsplit scheme netloc path query []) =
      ⟨scheme, netloc, path, [], query, []⟩ := by
  simp only [pyUrlparse]
  rw [pyUrlsplit_assembled scheme netloc path query hs0 hs2 hs3 hslow hn hn0 hp hp63 hp35 hq35]
  simp [hp59]

lemma pyUrlparse_netloc_eq (dflt s : PyStr) :
    (pyUrlparse dflt s).netloc = (pyUrlsplit dflt s).netloc := rfl

theorem pyUrlsplit_assembled_netloc (scheme netloc path query : PyStr)
    (hs0 : scheme ≠ []) (hs2 : isAlphaCode (scheme.headD 0) = true)
    (hs3 : scheme.all isSchemeChar = true) (hslow : pyLower scheme = scheme)
    (hn : ∀ a ∈ netloc, a ∉ ([47, 63, 35] : List Nat)) (hn0 : netloc ≠ [])
    (hp : path = [] ∨ path.head? = some 47) :
    (pyUrlsplit [] (pyUrlunsplit scheme netloc path query [])).netloc = netloc := by
  rw [pyUrlunsplit_eq scheme netloc path query hs0 hn0 hp]
  simp only [pyUrlsplit]
  rw [splitScheme_append _ hs0 hs2 hs3 hslow]
  simp only
  rw [splitNetloc_append _ hn (qtail_spec path query hp)]

/-! ## Components of the normalizer output -/

/-- The `urlparse` result the normalizer works on. -/
def parsedOf (u : PyStr) (base : Option PyStr) : UrlParseRes :=
  pyUrlparse [] (stripFragment (resolveRaw u base))

/-- `(parsed.scheme or 'http').lower()`. -/
def normScheme (u : PyStr) (base : Option PyStr) : PyStr :=
  pyLower (if (parsedOf u base).scheme = [] then pystr "http" else (parsedOf u base).scheme)

/-- `parsed.netloc.lower()`. -/
def normNetloc (u : PyStr) (base : Option PyStr) : PyStr := pyLower (parsedOf u base).netloc

/-- The normalized path. -/
def normPathOf (u : PyStr) (base : Option PyStr) : PyStr := normSlashPath (parsedOf u base).path

/-- `qs_filtered`. -/
def normPairs (u : PyStr) (base : Option PyStr) : List (PyStr × PyStr) :=
  filterTracking (parseQsl (parsedOf u base).query)

/-- The reassembled query string. -/
def normQuery (u : PyStr) (base : Option PyStr) : PyStr := joinPairs (normPairs u base)

lemma normalizeCore_eq (u : PyStr) (base : Option PyStr) :
    normalizeCore u base =
      (pyUrlunparse (normScheme u base) (normNetloc u base) (normPathOf u base) []
        (normQuery u base) [], normNetloc u base) := rfl

lemma pyUrlunparse_no_params (scheme netloc path query : PyStr) :
    pyUrlunparse scheme netloc path [] query [] = pyUrlunsplit scheme netloc path query [] := rfl

lemma pyLower_ne_nil {s : PyStr} (h : s ≠ []) : pyLower s ≠ [] := by
  cases s with
  | nil => exact absurd rfl h
  | cons a t => simp [pyLower]

lemma normScheme_spec (u : PyStr) (base : Option PyStr) :
    normScheme u base ≠ [] ∧ isAlphaCode ((normScheme u base).headD 0) = true ∧
      (normScheme u base).all isSchemeChar = true ∧
      pyLower (normScheme u base) = normScheme u base := by
  have hps : (parsedOf u base).scheme = (splitScheme [] (stripFragment (resolveRaw u base))).1 :=
    rfl
  rcases splitScheme_fst_spec [] (stripFragment (resolveRaw u base)) with hd | ⟨pre, hpre, hne, hal, hall⟩
  · have heq : normScheme u base = pyLower (pystr "http") := by
      rw [normScheme, hps, hd]
      simp
    rw [heq]
    refine ⟨by decide, by decide, by decide, by decide⟩
  · have hsch : (parsedOf u base).scheme = pyLower pre := by rw [hps, hpre]
    have hne2 : (parsedOf u base).scheme ≠ [] := by
      rw [hsch]
      exact pyLower_ne_nil hne
    have hns : normScheme u base = pyLower pre := by
      rw [normScheme, if_neg hne2, hsch, pyLower_idem]
    rw [hns]
    cases pre with
    | nil => exact absurd rfl hne
    | cons c0 t =>
      refine ⟨by simp [pyLower], ?_, pyLower_all_schemeChar hall, pyLower_idem _⟩
      have : (pyLower (c0 :: t)).headD 0 = lowerChar c0 := by simp [pyLower]
      rw [this]
      exact lowerChar_alpha (by simpa using hal)

lemma normNetloc_chars (u : PyStr) (base : Option PyStr) :
    ∀ a ∈ normNetloc u base, a ∉ ([47, 63, 35] : List Nat) := by
  intro a ha
  rw [normNetloc] at ha
  simp only [pyLower, List.mem_map] at ha
  obtain ⟨b, hb, rfl⟩ := ha
  have hbn : b ∉ ([47, 63, 35] : List Nat) := by
    have hne : (parsedOf u base).netloc =
        (splitNetloc (splitScheme [] (stripFragment (resolveRaw u base))).2).1 := rfl
    rw [hne] at hb
    exact splitNetloc_fst_chars _ b hb
  exact lowerChar_keep_not_mem hbn (by decide)

lemma parsedOf_path_pref (u : PyStr) (base : Option PyStr) :
    (parsedOf u base).path <+: (pyUrlsplit [] (stripFragment (resolveRaw u base))).path := by
  rw [parsedOf, pyUrlparse]
  simp only
  split
  · exact pySplitParams_fst_pref _
  · exact List.prefix_rfl

lemma pyUrlsplit_path_not63 (dflt s : PyStr) : 63 ∉ (pyUrlsplit dflt s).path :=
  splitFirst_fst_not_mem 63 _

lemma pyUrlsplit_path_not35 (dflt s : PyStr) : 35 ∉ (pyUrlsplit dflt s).path := by
  have h1 : (35 : Nat) ∉ (splitFirst 35 (splitNetloc (splitScheme dflt s).2).2).1 :=
    splitFirst_fst_not_mem 35 _
  exact mem_of_pref (splitFirst_fst_pref 63 _) h1

lemma pyUrlsplit_path_head (dflt s : PyStr) (hn : (pyUrlsplit dflt s).netloc ≠ []) :
    (pyUrlsplit dflt s).path = [] ∨ (pyUrlsplit dflt s).path.head? = some 47 := by
  by_cases hp : (pyUrlsplit dflt s).path = []
  · exact Or.inl hp
  · right
    have hpre : (pyUrlsplit dflt s).path <+: (splitNetloc (splitScheme dflt s).2).2 := by
      have h1 := splitFirst_fst_pref 63 ((splitFirst 35 (splitNetloc (splitScheme dflt s).2).2).1)
      have h2 := splitFirst_fst_pref 35 ((splitNetloc (splitScheme dflt s).2).2)
      exact h1.trans h2
    have hhead := prefix_head hpre hp
    rcases splitNetloc_snd_spec (splitScheme dflt s).2 hn with h0 | ⟨a, t, hat, hmem⟩
    · rw [h0] at hpre
      exact absurd (List.prefix_nil.mp hpre) hp
    · rw [hat] at hhead
      simp only [List.head?_cons] at hhead
      have hmem_path : a ∈ (pyUrlsplit dflt s).path := by
        have : a ∈ (pyUrlsplit dflt s).path.head? := by rw [← hhead]; rfl
        exact List.mem_of_mem_head? this
      have h63 := pyUrlsplit_path_not63 dflt s
      have h35 := pyUrlsplit_path_not35 dflt s
      have ha47 : a = 47 := by
        simp only [List.mem_cons, List.not_mem_nil, or_false] at hmem
        rcases hmem with rfl | rfl | rfl
        · rfl
        · exact absurd hmem_path h63
        · exact absurd hmem_path h35
      rw [← hhead, ha47]

lemma parsedOf_path_not63 (u : PyStr) (base : Option PyStr) : 63 ∉ (parsedOf u base).path :=
  mem_of_pref (parsedOf_path_pref u base) (pyUrlsplit_path_not63 _ _)

lemma parsedOf_path_not35 (u : PyStr) (base : Option PyStr) : 35 ∉ (parsedOf u base).path :=
  mem_of_pref (parsedOf_path_pref u base) (pyUrlsplit_path_not35 _ _)

lemma parsedOf_path_head (u : PyStr) (base : Option PyStr)
    (hn : (parsedOf u base).netloc ≠ []) :
    (parsedOf u base).path = [] ∨ (parsedOf u base).path.head? = some 47 := by
  by_cases hp : (parsedOf u base).path = []
  · exact Or.inl hp
  · right
    have hsp := pyUrlsplit_path_head [] (stripFragment (resolveRaw u base)) hn
    rcases hsp with h0 | hh
    · have := parsedOf_path_pref u base
      rw [h0] at this
      exact absurd (List.prefix_nil.mp this) hp
    · rw [prefix_head (parsedOf_path_pref u base) hp] at hh
      exact hh

/-! ## The trailing-slash rule -/

lemma normSlashPath_eq (p : PyStr) :
    normSlashPath p =
      if p = [] then [47]
      else if p ≠ [47] ∧ p.getLastD 0 = 47 then rstripSlash p else p := by
  unfold normSlashPath
  by_cases hp : p = []
  · subst hp
    simp
  · simp [hp]

lemma getLast?_ne_of_getLastD {p : PyStr} (h : p.getLastD 0 ≠ 47) :
    p.getLast? ≠ some 47 := by
  intro hcon
  apply h
  rw [List.getLastD_eq_getLast?, hcon]
  rfl

lemma getLastD_ne_of_getLast? {p : PyStr} (hp : p ≠ []) (h : p.getLast? ≠ some 47) :
    p.getLastD 0 ≠ 47 := by
  rw [List.getLastD_eq_getLast?]
  cases hq : p.getLast? with
  | none =>
    rw [List.getLast?_eq_none_iff] at hq
    exact absurd hq hp
  | some x =>
    simp only [Option.getD_some]
    intro hx
    subst hx
    exact h hq

lemma normSlashPath_no_trailing (p : PyStr) :
    normSlashPath p = [47] ∨ (normSlashPath p).getLast? ≠ some 47 := by
  rw [normSlashPath_eq]
  by_cases hp : p = []
  · simp [hp]
  · rw [if_neg hp]
    by_cases hc : p ≠ [47] ∧ p.getLastD 0 = 47
    · rw [if_pos hc]
      rcases rstripSlash_no_trailing p with h | h
      · right
        rw [h]
        simp
      · exact Or.inr h
    · by_cases hp47 : p = [47]
      · rw [if_neg hc, hp47]
        exact Or.inl rfl
      · rw [if_neg hc]
        right
        exact getLast?_ne_of_getLastD fun h2 => hc ⟨hp47, h2⟩

lemma normSlashPath_head {p : PyStr} (hp : p = [] ∨ p.head? = some 47) :
    normSlashPath p = [] ∨ (normSlashPath p).head? = some 47 := by
  rw [normSlashPath_eq]
  rcases hp with rfl | hp
  · simp
  · have hpne : p ≠ [] := by
      intro h
      rw [h] at hp
      simp at hp
    rw [if_neg hpne]
    by_cases hc : p ≠ [47] ∧ p.getLastD 0 = 47
    · rw [if_pos hc]
      by_cases hr : rstripSlash p = []
      · exact Or.inl hr
      · right
        rw [prefix_head (rstripSlash_pref p) hr] at hp
        exact hp
    · rw [if_neg hc]
      exact Or.inr hp

lemma normSlashPath_not_mem {c : Nat} {p : PyStr} (hc : c ≠ 47) (h : c ∉ p) :
    c ∉ normSlashPath p := by
  rw [normSlashPath_eq]
  by_cases hp : p = []
  · simp [hp, hc]
  · rw [if_neg hp]
    by_cases hcc : p ≠ [47] ∧ p.getLastD 0 = 47
    · rw [if_pos hcc]
      exact mem_of_pref (rstripSlash_pref p) h
    · rw [if_neg hcc]
      exact h

lemma normSlashPath_idem {p : PyStr} (hne : normSlashPath p ≠ []) :
    normSlashPath (normSlashPath p) = normSlashPath p := by
  rcases normSlashPath_no_trailing p with h47 | hnt
  · rw [h47]
    decide
  · have hcond : ¬(normSlashPath p ≠ [47] ∧ (normSlashPath p).getLastD 0 = 47) := by
      rintro ⟨-, h2⟩
      exact getLastD_ne_of_getLast? hne hnt h2
    rw [normSlashPath_eq, if_neg hne, if_neg hcond]

/-! ## Host-emptiness and netloc re-parse facts about the normalizer -/

/-- The products crawler's `normalize_url` returns `None` whenever the
`urlparse` of the fragment-stripped, base-resolved URL has an empty netloc. -/
theorem normalizeUrlProducts_none_of_no_host (u : PyStr) (base : Option PyStr)
    (h : (parsedOf u base).netloc = []) : normalizeUrlProducts u base = none := by
  rw [normalizeUrlProducts]
  by_cases hu : u = []
  · rw [if_pos hu]
  · rw [if_neg hu, normalizeCore_eq]
    have hn : normNetloc u base = [] := by
      rw [normNetloc, h]
      rfl
    simp [hn]

/-- Re-parsing a non-null normalizer output recovers exactly the lowered
netloc, whatever else the URL contains. -/
theorem normalizeCore_reparse_netloc (u : PyStr) (base : Option PyStr)
    (hnet : normNetloc u base ≠ []) :
    (pyUrlparse [] (normalizeCore u base).1).netloc = normNetloc u base := by
  obtain ⟨hs0, hs2, hs3, hslow⟩ := normScheme_spec u base
  have hphead : normPathOf u base = [] ∨ (normPathOf u base).head? = some 47 := by
    refine normSlashPath_head (parsedOf_path_head u base ?_)
    intro h0
    apply hnet
    rw [normNetloc, h0]
    rfl
  rw [normalizeCore_eq]
  simp only
  rw [pyUrlunparse_no_params, pyUrlparse_netloc_eq]
  exact pyUrlsplit_assembled_netloc _ _ _ _ hs0 hs2 hs3 hslow (normNetloc_chars u base)
    hnet hphead

/-! ## Conditional idempotence of the normalizer -/

theorem normalizeUrlProducts_idem (u n : PyStr)
    (hn : normalizeUrlProducts u none = some n)
    (hpath : normPathOf u none ≠ [])
    (hsemi : 59 ∉ normPathOf u none)
    (hq : ∀ kv ∈ normPairs u none, goodKey kv.1 ∧ goodVal kv.2) :
    normalizeUrlProducts n none = some n := by
  have hu0 : u ≠ [] := by
    intro h
    rw [h] at hn
    simp [normalizeUrlProducts] at hn
  have hnet : normNetloc u none ≠ [] := by
    intro h
    rw [normalizeUrlProducts, if_neg hu0, normalizeCore_eq] at hn
    simp [h] at hn
  have hval : n = pyUrlunparse (normScheme u none) (normNetloc u none) (normPathOf u none) []
      (normQuery u none) [] := by
    rw [normalizeUrlProducts, if_neg hu0, normalizeCore_eq] at hn
    simp only [if_neg hnet, Option.some.injEq] at hn
    exact hn.symm
  obtain ⟨hs0, hs2, hs3, hslow⟩ := normScheme_spec u none
  have hnchars := normNetloc_chars u none
  have hphead : normPathOf u none = [] ∨ (normPathOf u none).head? = some 47 := by
    refine normSlashPath_head (parsedOf_path_head u none ?_)
    intro h0
    apply hnet
    rw [normNetloc, h0]
    rfl
  have hp63 : 63 ∉ normPathOf u none :=
    normSlashPath_not_mem (by omega) (parsedOf_path_not63 u none)
  have hp35 : 35 ∉ normPathOf u none :=
    normSlashPath_not_mem (by omega) (parsedOf_path_not35 u none)
  have hq35 : 35 ∉ normQuery u none := by
    refine joinPairs_not_mem (by omega) (by omega) _ ?_
    intro kv hkv
    exact ⟨(hq kv hkv).1.1.2.2.2, (hq kv hkv).2.2.2.2⟩
  have h35n : 35 ∉ n := by
    rw [hval, pyUrlunparse_no_params,
      pyUrlunsplit_eq _ _ _ _ hs0 hnet hphead]
    intro hmem
    simp only [List.mem_append, List.mem_cons] at hmem
    rcases hmem with h | h | h | h | h
    · exact all_schemeChar_not_mem hs3 (by decide) h
    · omega
    · omega
    · omega
    · rcases h with h2 | h2 | h2
      · exact hnchars 35 h2 (by simp)
      · exact hp35 h2
      · by_cases hqe : normQuery u none = []
        · rw [if_pos hqe] at h2
          simp at h2
        · rw [if_neg hqe] at h2
          rcases List.mem_cons.mp h2 with h4 | h4
          · omega
          · exact hq35 h4
  have hstrip : stripFragment n = n := by
    rw [stripFragment, splitFirst_of_not_mem h35n]
  have hparse : pyUrlparse [] n =
      ⟨normScheme u none, normNetloc u none, normPathOf u none, [], normQuery u none, []⟩ := by
    rw [hval, pyUrlunparse_no_params]
    exact pyUrlparse_assembled _ _ _ _ hs0 hs2 hs3 hslow hnchars hnet hphead hp63 hp35
      hsemi hq35
  have hn0 : n ≠ [] := by
    rw [hval, pyUrlunparse_no_params, pyUrlunsplit_eq _ _ _ _ hs0 hnet hphead]
    cases hcs : normScheme u none with
    | nil => exact absurd hcs hs0
    | cons a t => simp
  have hpn : parsedOf n none =
      ⟨normScheme u none, normNetloc u none, normPathOf u none, [], normQuery u none, []⟩ := by
    rw [parsedOf]
    show pyUrlparse [] (stripFragment n) = _
    rw [hstrip, hparse]
  have hcs : normScheme n none = normScheme u none := by
    rw [normScheme, hpn]
    simp only
    rw [if_neg hs0, hslow]
  have hcn : normNetloc n none = normNetloc u none := by
    rw [normNetloc, hpn]
    exact pyLower_idem _
  have hcp : normPathOf n none = normPathOf u none := by
    rw [normPathOf, hpn]
    exact normSlashPath_idem hpath
  have hcq : normQuery n none = normQuery u none := by
    rw [normQuery, normPairs, hpn]
    simp only
    rw [show normQuery u none = joinPairs (normPairs u none) from rfl, parseQsl_joinPairs hq]
    rw [show normPairs u none = filterTracking (parseQsl (parsedOf u none).query) from rfl]
    rw [filterTracking_idem]
  rw [normalizeUrlProducts, if_neg hn0, normalizeCore_eq]
  simp only [hcs, hcn, hcp, hcq]
  rw [if_neg hnet, ← hval]

/-! ## Claims C3, C4, C5 -/

/-- C3 (counterexample): `normalize_url` is not idempotent as claimed.  The
all-slash path of `http://x.com//` is `rstrip`-ped to the empty string, so
the first pass yields `http://x.com`, whose second pass turns the now-empty
path into `/`, giving the different string `http://x.com/`. -/
theorem claim_C3_counterexample :
    normalizeUrlProducts (pystr "http://x.com//") none = some (pystr "http://x.com") ∧
    normalizeUrlProducts (pystr "http://x.com") none = some (pystr "http://x.com/") ∧
    pystr "http://x.com/" ≠ pystr "http://x.com" := by decide

/-- C3 (amended): `normalize_url` (products copy; the `ai_crawler` body is
identical) is idempotent on every input whose normalized path is non-empty
(not an all-slash path) and semicolon-free, and whose filtered query pairs
contain no `%`, `+`, `&`, `#` (nor `=` in a key) — i.e. whenever
percent-decoding does not reintroduce separator characters and the path
survives the `rstrip`.  Without those conditions a second application can
differ, as the counterexample shows. -/
theorem claim_C3 (u n : PyStr)
    (hn : normalizeUrlProducts u none = some n)
    (hpath : normPathOf u none ≠ [])
    (hsemi : 59 ∉ normPathOf u none)
    (hq : ∀ kv ∈ normPairs u none, goodKey kv.1 ∧ goodVal kv.2) :
    normalizeUrlProducts n none = some n :=
  normalizeUrlProducts_idem u n hn hpath hsemi hq

/-- C3 (witness): a concrete idempotent run through the tracking-filtering
query step. -/
theorem claim_C3_witness :
    normalizeUrlProducts (pystr "http://X.com/a/?b=1&utm_source=z") none
        = some (pystr "http://x.com/a?b=1") ∧
    normalizeUrlProducts (pystr "http://x.com/a?b=1") none
        = some (pystr "http://x.com/a?b=1") :=
  ⟨by decide,
   claim_C3 (pystr "http://X.com/a/?b=1&utm_source=z") (pystr "http://x.com/a?b=1")
     (by decide) (by decide) (by decide) (by decide)⟩

/-- C4 (counterexample): the `ai_crawler.py` copy of `normalize_url` has no
empty-netloc check: a host-less input such as `/a` resolves to an empty
netloc yet is returned as `http:/a`, not null. -/
theorem claim_C4_counterexample :
    (parsedOf (pystr "/a") none).netloc = [] ∧
    normalizeUrlAi (pystr "/a") none = some (pystr "http:/a") := by decide

/-- C4 (amended): the claim holds for the products crawler's copy only:
`normalize_url` in `python_web_crawler_products.py` returns null whenever
the resolved URL's netloc is empty, for every input and every (possibly
absent) base; the `ai_crawler.py` copy returns the host-less string. -/
theorem claim_C4 (u : PyStr) (base : Option PyStr)
    (h : (parsedOf u base).netloc = []) : normalizeUrlProducts u base = none :=
  normalizeUrlProducts_none_of_no_host u base h

/-- C4 (witness): a relative path with no base has no host and normalizes
to null in the products copy. -/
theorem claim_C4_witness :
    (parsedOf (pystr "/rel/path") none).netloc = [] ∧
    normalizeUrlProducts (pystr "/rel/path") none = none :=
  ⟨by decide, claim_C4 (pystr "/rel/path") none (by decide)⟩

/-- C5 (counterexample): the path rule removes ALL trailing slashes, not
exactly one: `http://x.com/foo//` normalizes to `http://x.com/foo`, not to
the claimed `http://x.com/foo/`. -/
theorem claim_C5_counterexample :
    normalizeUrlProducts (pystr "http://x.com/foo//") none = some (pystr "http://x.com/foo") ∧
    pystr "http://x.com/foo" ≠ pystr "http://x.com/foo/" := by decide

/-- C5 (amended): the trailing-slash rule `rstrip`s every trailing slash:
the result either is exactly `/` or has no trailing slash at all (in
particular `/a/` and `/a` normalize identically and the root keeps its
slash), `/foo//` loses both slashes, and a path consisting solely of
slashes collapses to the empty path. -/
theorem claim_C5 :
    (∀ p : PyStr, normSlashPath p = [47] ∨ (normSlashPath p).getLast? ≠ some 47) ∧
    normalizeUrlProducts (pystr "http://x.com/a/") none
        = normalizeUrlProducts (pystr "http://x.com/a") none ∧
    normalizeUrlProducts (pystr "http://x.com/") none = some (pystr "http://x.com/") ∧
    normalizeUrlProducts (pystr "http://x.com/foo//") none = some (pystr "http://x.com/foo") ∧
    normSlashPath (pystr "//") = [] :=
  ⟨normSlashPath_no_trailing, by decide, by decide, by decide, by decide⟩

/-! ## The crawl loop of `robust_crawl.worker` / `crawl.worker`

The asyncio workers of `python_web_crawler_products.robust_crawl` (and the
structurally identical `ai_crawler.crawl`) run single-threaded: code between
two `await`s executes atomically.  The worker body has exactly two atomic
blocks: from the `while` test through the pop, the skip checks and the start
of the awaited fetch; and from `visited.add(url)` after the fetch resumes
through the extract/enqueue loop.  The machine below has one transition per
block, scheduled nondeterministically over a pool of workers; `fetched` is
the ghost trace of URLs whose fetch was started. -/

/-- `EXTENSION_SKIP`. -/
def extensionSkip : List PyStr :=
  [pystr ".jpg", pystr ".jpeg", pystr ".png", pystr ".gif", pystr ".svg", pystr ".pdf",
   pystr ".zip", pystr ".rar", pystr ".exe", pystr ".tar", pystr ".gz", pystr ".woff",
   pystr ".woff2"]

/-- `any(l.lower().endswith(ext) for ext in EXTENSION_SKIP)`. -/
def endsWithExt (l : PyStr) : Bool :=
  extensionSkip.any fun ext => ext.isSuffixOf (pyLower l)

/-- Run parameters and environment of one crawl: page budget, the seed host
`base_host` taken verbatim from `urlparse(start_url).netloc`, whether
robots.txt loaded (`rp` is not `None`), the `ignore_robots` flag, and
oracles for `rp.can_fetch`, fetch success, and the per-page extracted
normalized links (extractor output merged with normalized render
candidates). -/
structure CrawlParams where
  maxPages : Nat
  baseHost : PyStr
  rpLoaded : Bool
  ignoreRobots : Bool
  canFetch : PyStr → Bool
  fetchOk : PyStr → Bool
  pageLinks : PyStr → List PyStr

/-- Shared crawl state plus the worker pool: `idleW` idle workers and the
URLs currently being fetched (one in-flight URL per busy worker). -/
structure CrawlState where
  q : List PyStr
  discovered : List PyStr
  visited : List PyStr
  results : List PyStr
  fetched : List PyStr
  idleW : Nat
  fetching : List PyStr
deriving Repr, DecidableEq

/-- `visited.add(url)` (set semantics). -/
def insertVisited (u : PyStr) (v : List PyStr) : List PyStr :=
  if u ∈ v then v else v ++ [u]

/-- One iteration of the worker's enqueue loop body (`for l in links`). -/
def enqueueOne (P : CrawlParams) (st : CrawlState) (l : PyStr) : CrawlState :=
  if l = [] then st
  else if endsWithExt l then st
  else if (pyUrlparse [] l).netloc = P.baseHost ∧ l ∉ st.discovered then
    { st with discovered := st.discovered ++ [l], q := st.q ++ [l] }
  else st

/-- The whole enqueue loop. -/
def enqueueLinks (P : CrawlParams) (links : List PyStr) (s : CrawlState) : CrawlState :=
  links.foldl (enqueueOne P) s

/-- An idle worker runs the loop head: the `while q and len(visited) <
max_pages` test, the pop, the empty/visited/off-domain/robots skip checks,
and — if all pass — starts the awaited fetch.  `none` means this worker
cannot take a step (no idle worker, or the loop condition fails and the
worker exits). -/
def idleStep (P : CrawlParams) (s : CrawlState) : Option CrawlState :=
  if s.idleW = 0 then none
  else if P.maxPages ≤ s.visited.length then none
  else
    match s.q with
    | [] => none
    | url :: rest =>
      let s1 := { s with q := rest }
      if url = [] then some s1
      else if url ∈ s1.visited then some s1
      else if (pyUrlparse [] url).netloc ≠ P.baseHost then
        some { s1 with visited := insertVisited url s1.visited }
      else if P.rpLoaded ∧ ¬P.ignoreRobots ∧ ¬P.canFetch url then
        some { s1 with visited := insertVisited url s1.visited }
      else
        some { s1 with
                idleW := s1.idleW - 1
                fetching := s1.fetching ++ [url]
                fetched := s1.fetched ++ [url] }

/-- Busy worker `j`'s awaited fetch returns; it runs `visited.add(url)`,
then on fetch success appends the PageResult and the enqueue loop. -/
def resumeStep (P : CrawlParams) (j : Nat) (s : CrawlState) : Option CrawlState :=
  match s.fetching[j]? with
  | none => none
  | some url =>
    let s1 := { s with
                fetching := s.fetching.eraseIdx j
                idleW := s.idleW + 1
                visited := insertVisited url s.visited }
    if P.fetchOk url then
      some (enqueueLinks P (P.pageLinks url) { s1 with results := s1.results ++ [url] })
    else some s1

/-- Initial state: queue and discovered-set seeded with the initial URLs,
`w` idle workers. -/
def initState (q0 : List PyStr) (w : Nat) : CrawlState :=
  ⟨q0, q0, [], [], [], w, []⟩

inductive CrawlStep (P : CrawlParams) : CrawlState → CrawlState → Prop
  | idle {s s' : CrawlState} : idleStep P s = some s' → CrawlStep P s s'
  | resume {s s' : CrawlState} (j : Nat) : resumeStep P j s = some s' → CrawlStep P s s'

/-- States reachable by any interleaving of worker steps. -/
inductive Reach (P : CrawlParams) (q0 : List PyStr) (w : Nat) : CrawlState → Prop
  | init : Reach P q0 w (initState q0 w)
  | step {s s' : CrawlState} : Reach P q0 w s → CrawlStep P s s' → Reach P q0 w s'

/-! ## Frame and worker-count invariants -/

lemma enqueueOne_frame (P : CrawlParams) (st : CrawlState) (l : PyStr) :
    (enqueueOne P st l).visited = st.visited ∧ (enqueueOne P st l).fetched = st.fetched ∧
    (enqueueOne P st l).idleW = st.idleW ∧ (enqueueOne P st l).fetching = st.fetching ∧
    (enqueueOne P st l).results = st.results := by
  unfold enqueueOne
  split
  · exact ⟨rfl, rfl, rfl, rfl, rfl⟩
  · split
    · exact ⟨rfl, rfl, rfl, rfl, rfl⟩
    · split
      · exact ⟨rfl, rfl, rfl, rfl, rfl⟩
      · exact ⟨rfl, rfl, rfl, rfl, rfl⟩

lemma enqueueLinks_frame (P : CrawlParams) (links : List PyStr) (s : CrawlState) :
    (enqueueLinks P links s).visited = s.visited ∧
    (enqueueLinks P links s).fetched = s.fetched ∧
    (enqueueLinks P links s).idleW = s.idleW ∧
    (enqueueLinks P links s).fetching = s.fetching ∧
    (enqueueLinks P links s).results = s.results := by
  induction links generalizing s with
  | nil => exact ⟨rfl, rfl, rfl, rfl, rfl⟩
  | cons l ls ih =>
    have hstep : enqueueLinks P (l :: ls) s = enqueueLinks P ls (enqueueOne P s l) := rfl
    rw [hstep]
    obtain ⟨h1, h2, h3, h4, h5⟩ := ih (enqueueOne P s l)
    obtain ⟨g1, g2, g3, g4, g5⟩ := enqueueOne_frame P s l
    exact ⟨h1.trans g1, h2.trans g2, h3.trans g3, h4.trans g4, h5.trans g5⟩

lemma insertVisited_length_le (u : PyStr) (v : List PyStr) :
    (insertVisited u v).length ≤ v.length + 1 := by
  unfold insertVisited
  split
  · omega
  · simp

lemma insertVisited_nodup (u : PyStr) {v : List PyStr} (h : v.Nodup) :
    (insertVisited u v).Nodup := by
  unfold insertVisited
  split
  · exact h
  · rename_i hu
    simp [List.nodup_append, h, hu]

lemma reach_workers {P : CrawlParams} {q0 : List PyStr} {w : Nat} {s : CrawlState}
    (hs : Reach P q0 w s) : s.idleW + s.fetching.length = w := by
  induction hs with
  | init => simp [initState]
  | step hr hstep ih =>
    rename_i s s'
    cases hstep with
    | idle hid =>
      rw [idleStep] at hid
      by_cases h0 : s.idleW = 0
      · rw [if_pos h0] at hid
        cases hid
      · rw [if_neg h0] at hid
        by_cases h1 : P.maxPages ≤ s.visited.length
        · rw [if_pos h1] at hid
          cases hid
        · rw [if_neg h1] at hid
          cases hq : s.q with
          | nil =>
            rw [hq] at hid
            cases hid
          | cons url rest =>
            rw [hq] at hid
            simp only at hid
            split at hid
            · cases hid
              simpa using ih
            · split at hid
              · cases hid
                simpa using ih
              · split at hid
                · cases hid
                  simpa using ih
                · split at hid
                  · cases hid
                    simpa using ih
                  · cases hid
                    simp only [List.length_append, List.length_cons, List.length_nil]
                    omega
    | resume j hres =>
      rw [resumeStep] at hres
      cases hj : s.fetching[j]? with
      | none =>
        rw [hj] at hres
        cases hres
      | some url =>
        rw [hj] at hres
        simp only at hres
        have hjlt : j < s.fetching.length := (List.getElem?_eq_some.mp hj).1
        split at hres
        · cases hres
          obtain ⟨-, -, h3, h4, -⟩ := enqueueLinks_frame P (P.pageLinks url) _
          rw [h3, h4]
          show s.idleW + 1 + (s.fetching.eraseIdx j).length = w
          rw [List.length_eraseIdx, if_pos hjlt]
          omega
        · cases hres
          show s.idleW + 1 + (s.fetching.eraseIdx j).length = w
          rw [List.length_eraseIdx, if_pos hjlt]
          omega

/-! ## Step characterizations -/

lemma idleStep_cases {P : CrawlParams} {s s' : CrawlState} (h : idleStep P s = some s') :
    s.idleW ≠ 0 ∧ s.visited.length < P.maxPages ∧
    ∃ url rest, s.q = url :: rest ∧
      (s' = { s with q := rest } ∨
       (s' = { s with q := rest, visited := insertVisited url s.visited } ∧
          ((pyUrlparse [] url).netloc ≠ P.baseHost ∨
            (P.rpLoaded ∧ ¬P.ignoreRobots ∧ ¬P.canFetch url))) ∨
       (s' = { s with
                q := rest
                idleW := s.idleW - 1
                fetching := s.fetching ++ [url]
                fetched := s.fetched ++ [url] } ∧
          url ≠ [] ∧ url ∉ s.visited ∧ (pyUrlparse [] url).netloc = P.baseHost ∧
          ¬(P.rpLoaded ∧ ¬P.ignoreRobots ∧ ¬P.canFetch url))) := by
  rw [idleStep] at h
  by_cases h0 : s.idleW = 0
  · rw [if_pos h0] at h
    cases h
  · rw [if_neg h0] at h
    by_cases h1 : P.maxPages ≤ s.visited.length
    · rw [if_pos h1] at h
      cases h
    · rw [if_neg h1] at h
      cases hq : s.q with
      | nil =>
        rw [hq] at h
        cases h
      | cons url rest =>
        rw [hq] at h
        simp only at h
        refine ⟨h0, by omega, url, rest, rfl, ?_⟩
        split at h
        · cases h
          exact Or.inl rfl
        · split at h
          · cases h
            exact Or.inl rfl
          · split at h
            · rename_i hdom
              cases h
              exact Or.inr (Or.inl ⟨rfl, Or.inl hdom⟩)
            · split at h
              · rename_i hdom hrob
                cases h
                exact Or.inr (Or.inl ⟨rfl, Or.inr hrob⟩)
              · rename_i hne hnv hdom hrob
                cases h
                refine Or.inr (Or.inr ⟨rfl, hne, hnv, ?_, hrob⟩)
                by_contra hc
                exact hdom hc
  
lemma resumeStep_cases {P : CrawlParams} {j : Nat} {s s' : CrawlState}
    (h : resumeStep P j s = some s') :
    ∃ url, s.fetching[j]? = some url ∧
      ((P.fetchOk url = true ∧
          s' = enqueueLinks P (P.pageLinks url)
            { s with
               fetching := s.fetching.eraseIdx j
               idleW := s.idleW + 1
               visited := insertVisited url s.visited
               results := s.results ++ [url] }) ∨
       (P.fetchOk url = false ∧
          s' = { s with
                  fetching := s.fetching.eraseIdx j
                  idleW := s.idleW + 1
                  visited := insertVisited url s.visited })) := by
  rw [resumeStep] at h
  cases hj : s.fetching[j]? with
  | none =>
    rw [hj] at h
    cases h
  | some url =>
    rw [hj] at h
    simp only at h
    refine ⟨url, rfl, ?_⟩
    split at h
    · rename_i hok
      cases h
      exact Or.inl ⟨hok, rfl⟩
    · rename_i hok
      cases h
      exact Or.inr ⟨by simpa using hok, rfl⟩

/-! ## Claim C1: budget respect -/

lemma reach_budget {P : CrawlParams} {q0 : List PyStr} {w : Nat} (hw : 1 ≤ w)
    {s : CrawlState} (hs : Reach P q0 w s) :
    s.visited.length + s.fetching.length ≤ P.maxPages + w - 1 := by
  induction hs with
  | init =>
    simp only [initState, List.length_nil]
    omega
  | step hr hstep ih =>
    rename_i s s'
    have hwk := reach_workers hr
    cases hstep with
    | idle hid =>
      obtain ⟨h0, h1, url, rest, hq, hcases⟩ := idleStep_cases hid
      rcases hcases with rfl | ⟨rfl, -⟩ | ⟨rfl, -, -, -, -⟩
      · simpa using ih
      · have hiv := insertVisited_length_le url s.visited
        show (insertVisited url s.visited).length + s.fetching.length ≤ _
        omega
      · show s.visited.length + (s.fetching ++ [url]).length ≤ _
        rw [List.length_append]
        simp only [List.length_cons, List.length_nil]
        omega
    | resume j hres =>
      obtain ⟨url, hj, hcases⟩ := resumeStep_cases hres
      have hjlt : j < s.fetching.length := (List.getElem?_eq_some.mp hj).1
      have hiv := insertVisited_length_le url s.visited
      have her : (s.fetching.eraseIdx j).length = s.fetching.length - 1 := by
        rw [List.length_eraseIdx, if_pos hjlt]
      rcases hcases with ⟨-, rfl⟩ | ⟨-, rfl⟩
      · obtain ⟨h1', -, -, h4', -⟩ := enqueueLinks_frame P (P.pageLinks url) _
        rw [h1', h4']
        show (insertVisited url s.visited).length + (s.fetching.eraseIdx j).length ≤ _
        omega
      · show (insertVisited url s.visited).length + (s.fetching.eraseIdx j).length ≤ _
        omega

/-- C1 (amended): the visited count can overshoot `max_pages`, but never by
more than `concurrency - 1`: because `visited.add(url)` happens only after
the awaited fetch, each busy worker can hold one over-budget addition, so
`|visited| ≤ max_pages + concurrency - 1` in every reachable state, and
with a single worker the budget is exact (`|visited| ≤ max_pages`). -/
theorem claim_C1 (P : CrawlParams) (q0 : List PyStr) (w : Nat) (hw : 1 ≤ w)
    (s : CrawlState) (hs : Reach P q0 w s) :
    s.visited.length ≤ P.maxPages + (w - 1) ∧
      (w = 1 → s.visited.length ≤ P.maxPages) := by
  have h := reach_budget hw hs
  constructor
  · omega
  · intro h1
    subst h1
    omega

def cexParams : CrawlParams :=
  { maxPages := 1, baseHost := pystr "x.com", rpLoaded := false, ignoreRobots := false,
    canFetch := fun _ => true, fetchOk := fun _ => true, pageLinks := fun _ => [] }

def cexA : PyStr := pystr "http://x.com/"

def cexB : PyStr := pystr "http://x.com/b"

def cexS1 : CrawlState := ⟨[cexB], [cexA, cexB], [], [], [cexA], 1, [cexA]⟩

def cexS2 : CrawlState := ⟨[], [cexA, cexB], [], [], [cexA, cexB], 0, [cexA, cexB]⟩

def cexS3 : CrawlState := ⟨[], [cexA, cexB], [cexA], [cexA], [cexA, cexB], 1, [cexB]⟩

def cexS4 : CrawlState := ⟨[], [cexA, cexB], [cexA, cexB], [cexA, cexB], [cexA, cexB], 2, []⟩

/-- C1 (counterexample): with `max_pages = 1` and two workers, both workers
pass the budget check while `visited` is still empty, both start fetches,
and both then add their URL: the reachable final state has `|visited| = 2 >
max_pages`.  The budget is not respected at every concurrency level. -/
theorem claim_C1_counterexample :
    Reach cexParams [cexA, cexB] 2 cexS4 ∧ cexS4.visited.length = 2 ∧
      cexParams.maxPages = 1 := by
  refine ⟨?_, rfl, rfl⟩
  have h0 : Reach cexParams [cexA, cexB] 2 (initState [cexA, cexB] 2) := Reach.init
  have h1 : Reach cexParams [cexA, cexB] 2 cexS1 :=
    Reach.step h0 (CrawlStep.idle (by decide))
  have h2 : Reach cexParams [cexA, cexB] 2 cexS2 :=
    Reach.step h1 (CrawlStep.idle (by decide))
  have h3 : Reach cexParams [cexA, cexB] 2 cexS3 :=
    Reach.step h2 (CrawlStep.resume 0 (by decide))
  exact Reach.step h3 (CrawlStep.resume 0 (by decide))

def simpleParams : CrawlParams :=
  { maxPages := 5, baseHost := pystr "x.com", rpLoaded := false, ignoreRobots := false,
    canFetch := fun _ => true, fetchOk := fun _ => true, pageLinks := fun _ => [] }

/-- C1 (witness): the amended bound applied to a concrete single-worker
crawl at its initial state. -/
theorem claim_C1_witness :
    (initState [pystr "http://x.com/"] 1).visited.length ≤ simpleParams.maxPages + (1 - 1) :=
  (claim_C1 simpleParams [pystr "http://x.com/"] 1 (by decide) _ Reach.init).1

/-! ## Claim C2: at-most-once fetch -/

/-- The dedup invariant: the queue never holds duplicates, no URL's fetch
has started twice, queued URLs are never already-fetched, and both queue
and fetch-trace are covered by the discovered set. -/
def dedupInv (s : CrawlState) : Prop :=
  s.q.Nodup ∧ s.fetched.Nodup ∧ (∀ u ∈ s.q, u ∉ s.fetched) ∧
    (∀ u ∈ s.q, u ∈ s.discovered) ∧ (∀ u ∈ s.fetched, u ∈ s.discovered)

lemma enqueueOne_dedup (P : CrawlParams) {st : CrawlState} (h : dedupInv st) (l : PyStr) :
    dedupInv (enqueueOne P st l) := by
  unfold enqueueOne
  split
  · exact h
  · split
    · exact h
    · split
      · rename_i hcond
        obtain ⟨hq, hf, hqf, hqd, hfd⟩ := h
        have hld : l ∉ st.discovered := hcond.2
        have hlq : l ∉ st.q := fun hm => hld (hqd l hm)
        have hlf : l ∉ st.fetched := fun hm => hld (hfd l hm)
        refine ⟨?_, hf, ?_, ?_, ?_⟩
        · simp [List.nodup_append, hq, hlq]
        · intro u hu
          rcases List.mem_append.mp hu with hm | hm
          · exact hqf u hm
          · simp only [List.mem_singleton] at hm
            subst hm
            exact hlf
        · intro u hu
          rcases List.mem_append.mp hu with hm | hm
          · exact List.mem_append.mpr (Or.inl (hqd u hm))
          · exact List.mem_append.mpr (Or.inr hm)
        · intro u hu
          exact List.mem_append.mpr (Or.inl (hfd u hu))
      · exact h

lemma enqueueLinks_dedup (P : CrawlParams) (links : List PyStr) {s : CrawlState}
    (h : dedupInv s) : dedupInv (enqueueLinks P links s) := by
  induction links generalizing s with
  | nil => exact h
  | cons l ls ih => exact ih (enqueueOne_dedup P h l)

lemma reach_dedup {P : CrawlParams} {q0 : List PyStr} {w : Nat} (hq0 : q0.Nodup)
    {s : CrawlState} (hs : Reach P q0 w s) : dedupInv s := by
  induction hs with
  | init => exact ⟨hq0, List.nodup_nil, by simp [initState], fun u hu => hu, by simp [initState]⟩
  | step hr hstep ih =>
    rename_i s s'
    obtain ⟨hq, hf, hqf, hqd, hfd⟩ := ih
    cases hstep with
    | idle hid =>
      obtain ⟨-, -, url, rest, hqe, hcases⟩ := idleStep_cases hid
      have hrest_nodup : rest.Nodup := by
        rw [hqe] at hq
        exact hq.of_cons
      have hurl_rest : url ∉ rest := by
        rw [hqe] at hq
        exact (List.nodup_cons.mp hq).1
      have hrest_f : ∀ u ∈ rest, u ∉ s.fetched := fun u hu =>
        hqf u (hqe ▸ List.mem_cons_of_mem url hu)
      have hrest_d : ∀ u ∈ rest, u ∈ s.discovered := fun u hu =>
        hqd u (hqe ▸ List.mem_cons_of_mem url hu)
      rcases hcases with rfl | ⟨rfl, -⟩ | ⟨rfl, -, -, -, -⟩
      · exact ⟨hrest_nodup, hf, hrest_f, hrest_d, hfd⟩
      · exact ⟨hrest_nodup, hf, hrest_f, hrest_d, hfd⟩
      · have hurl_q : url ∈ s.q := hqe ▸ List.mem_cons_self url rest
        have hurl_f : url ∉ s.fetched := hqf url hurl_q
        refine ⟨hrest_nodup, ?_, ?_, hrest_d, ?_⟩
        · simp [List.nodup_append, hf, hurl_f]
        · intro u hu
          simp only [List.mem_append, List.mem_singleton, not_or]
          exact ⟨hrest_f u hu, fun hequ => hurl_rest (hequ ▸ hu)⟩
        · intro u hu
          rcases List.mem_append.mp hu with hm | hm
          · exact hfd u hm
          · simp only [List.mem_singleton] at hm
            subst hm
            exact hqd u hurl_q
    | resume j hres =>
      obtain ⟨url, hj, hcases⟩ := resumeStep_cases hres
      rcases hcases with ⟨-, rfl⟩ | ⟨-, rfl⟩
      · exact enqueueLinks_dedup P _ ⟨hq, hf, hqf, hqd, hfd⟩
      · exact ⟨hq, hf, hqf, hqd, hfd⟩

lemma reach_visited_nodup {P : CrawlParams} {q0 : List PyStr} {w : Nat}
    {s : CrawlState} (hs : Reach P q0 w s) : s.visited.Nodup := by
  induction hs with
  | init => exact List.nodup_nil
  | step hr hstep ih =>
    rename_i s s'
    cases hstep with
    | idle hid =>
      obtain ⟨-, -, url, rest, hqe, hcases⟩ := idleStep_cases hid
      rcases hcases with rfl | ⟨rfl, -⟩ | ⟨rfl, -, -, -, -⟩
      · exact ih
      · exact insertVisited_nodup url ih
      · exact ih
    | resume j hres =>
      obtain ⟨url, hj, hcases⟩ := resumeStep_cases hres
      rcases hcases with ⟨-, rfl⟩ | ⟨-, rfl⟩
      · obtain ⟨h1, -, -, -, -⟩ := enqueueLinks_frame P (P.pageLinks url) _
        rw [h1]
        exact insertVisited_nodup url ih
      · exact insertVisited_nodup url ih

/-- C2: each normalized URL is fetched at most once and enters the visited
set at most once, for every concurrency level and any link structure: the
check-then-insert on `discovered` is atomic (no `await` inside it), so the
queue never holds duplicates and the ghost fetch trace stays duplicate-free;
and URLs differing only by tracking parameters normalize to the same key
(`/page?utm_campaign=x` and `/page` collide), so the duplicate is never
enqueued. -/
theorem claim_C2 (P : CrawlParams) (q0 : List PyStr) (w : Nat) (hq0 : q0.Nodup)
    (s : CrawlState) (hs : Reach P q0 w s) :
    s.fetched.Nodup ∧ s.visited.Nodup ∧
      normalizeUrlProducts (pystr "http://x.com/page?utm_campaign=x") none
        = normalizeUrlProducts (pystr "http://x.com/page") none :=
  ⟨(reach_dedup hq0 hs).2.1, reach_visited_nodup hs, by decide⟩

/-- C2 (witness): the at-most-once property at a concrete crawl state. -/
theorem claim_C2_witness :
    (initState [pystr "http://x.com/"] 2).fetched.Nodup ∧
      (initState [pystr "http://x.com/"] 2).visited.Nodup ∧
      normalizeUrlProducts (pystr "http://x.com/page?utm_campaign=x") none
        = normalizeUrlProducts (pystr "http://x.com/page") none :=
  claim_C2 simpleParams [pystr "http://x.com/"] 2 (by decide) _ Reach.init

/-! ## Claim C6: robots compliance -/

lemma reach_robots {P : CrawlParams} {q0 : List PyStr} {w : Nat}
    (hrp : P.rpLoaded = true) (hig : P.ignoreRobots = false)
    {s : CrawlState} (hs : Reach P q0 w s) : ∀ u ∈ s.fetched, P.canFetch u = true := by
  induction hs with
  | init => simp [initState]
  | step hr hstep ih =>
    rename_i s s'
    cases hstep with
    | idle hid =>
      obtain ⟨-, -, url, rest, hqe, hcases⟩ := idleStep_cases hid
      rcases hcases with rfl | ⟨rfl, -⟩ | ⟨rfl, -, -, -, hrob⟩
      · exact ih
      · exact ih
      · intro u hu
        rcases List.mem_append.mp hu with hm | hm
        · exact ih u hm
        · simp only [List.mem_singleton] at hm
          subst hm
          by_contra hc
          exact hrob ⟨hrp, by simp [hig], fun ht => hc ht⟩
    | resume j hres =>
      obtain ⟨url, hj, hcases⟩ := resumeStep_cases hres
      rcases hcases with ⟨-, rfl⟩ | ⟨-, rfl⟩
      · obtain ⟨-, h2, -, -, -⟩ := enqueueLinks_frame P (P.pageLinks url) _
        rw [h2]
        exact ih
      · exact ih

/-- C6: when robots checking is on (`ignore_robots=false`) and the policy
loaded (`rp` not `None`), a URL the policy disallows is never fetched at any
step: the dequeued URL fails `can_fetch`, is marked visited and skipped
before the (plain or render) fetch starts, so it never enters the fetch
trace. -/
theorem claim_C6 (P : CrawlParams) (q0 : List PyStr) (w : Nat)
    (hrp : P.rpLoaded = true) (hig : P.ignoreRobots = false)
    (s : CrawlState) (hs : Reach P q0 w s) (u : PyStr) (hu : P.canFetch u = false) :
    u ∉ s.fetched := by
  intro hmem
  have h := reach_robots hrp hig hs u hmem
  rw [h] at hu
  cases hu

def robotsParams : CrawlParams :=
  { maxPages := 5, baseHost := pystr "x.com", rpLoaded := true, ignoreRobots := false,
    canFetch := fun u => !((pystr "/private").isSuffixOf u), fetchOk := fun _ => true,
    pageLinks := fun _ => [] }

/-- C6 (witness): a robots-disallowed URL is absent from the fetch trace of
a concrete crawl state. -/
theorem claim_C6_witness :
    pystr "http://x.com/private" ∉ (initState [pystr "http://x.com/"] 1).fetched :=
  claim_C6 robotsParams [pystr "http://x.com/"] 1 rfl rfl _ Reach.init
    (pystr "http://x.com/private") (by decide)

/-! ## Claim C10: upper-case seed host -/

/-- A value in the range of the products crawler's `normalize_url`. -/
def NormOutProducts (l : PyStr) : Prop := ∃ u b, normalizeUrlProducts u b = some l

lemma normalizeUrlProducts_eq (u : PyStr) (b : Option PyStr) :
    normalizeUrlProducts u b =
      if u = [] then none
      else if normNetloc u b = [] then none
      else some (normalizeCore u b).1 := rfl

lemma normalizeUrlProducts_some {u : PyStr} {b : Option PyStr} {l : PyStr}
    (h : normalizeUrlProducts u b = some l) :
    normNetloc u b ≠ [] ∧ l = (normalizeCore u b).1 := by
  rw [normalizeUrlProducts_eq] at h
  by_cases hu : u = []
  · rw [if_pos hu] at h
    cases h
  · rw [if_neg hu] at h
    by_cases hn : normNetloc u b = []
    · rw [if_pos hn] at h
      cases h
    · rw [if_neg hn] at h
      cases h
      exact ⟨hn, rfl⟩

/-- The re-parsed host of any normalizer output is all-lowercase, so it can
never equal a `base_host` containing an upper-case letter. -/
lemma netloc_ne_upper_host {host : PyStr} (hup : ∃ c ∈ host, 65 ≤ c ∧ c ≤ 90)
    {l : PyStr} (hl : NormOutProducts l) : (pyUrlparse [] l).netloc ≠ host := by
  obtain ⟨u, b, hub⟩ := hl
  obtain ⟨hn, hl2⟩ := normalizeUrlProducts_some hub
  rw [hl2, normalizeCore_reparse_netloc u b hn]
  intro heq
  obtain ⟨c, hc, hcu⟩ := hup
  rw [← heq] at hc
  rw [normNetloc] at hc
  exact pyLower_no_upper _ c hc hcu

/-- The C10 invariant: nothing is ever fetched, no result is ever recorded,
no worker is ever busy, and the queue holds only normalizer outputs. -/
def upperHostInv (s : CrawlState) : Prop :=
  s.fetched = [] ∧ s.results = [] ∧ s.fetching = [] ∧ ∀ l ∈ s.q, NormOutProducts l

lemma reach_upperHost {P : CrawlParams} {q0 : List PyStr} {w : Nat}
    (hup : ∃ c ∈ P.baseHost, 65 ≤ c ∧ c ≤ 90)
    (hq0 : ∀ l ∈ q0, NormOutProducts l)
    {s : CrawlState} (hs : Reach P q0 w s) : upperHostInv s := by
  induction hs with
  | init => exact ⟨rfl, rfl, rfl, hq0⟩
  | step hr hstep ih =>
    rename_i s s'
    obtain ⟨hF, hR, hG, hQ⟩ := ih
    cases hstep with
    | idle hid =>
      obtain ⟨-, -, url, rest, hqe, hcases⟩ := idleStep_cases hid
      have hrestQ : ∀ l ∈ rest, NormOutProducts l := fun l hl =>
        hQ l (hqe ▸ List.mem_cons_of_mem url hl)
      rcases hcases with rfl | ⟨rfl, -⟩ | ⟨rfl, -, -, hdom, -⟩
      · exact ⟨hF, hR, hG, hrestQ⟩
      · exact ⟨hF, hR, hG, hrestQ⟩
      · have hno : NormOutProducts url := hQ url (hqe ▸ List.mem_cons_self url rest)
        exact absurd hdom (netloc_ne_upper_host hup hno)
    | resume j hres =>
      obtain ⟨url, hj, -⟩ := resumeStep_cases hres
      rw [hG] at hj
      simp at hj

/-- C10: if the start URL's host contains an upper-case letter, the crawl
fetches nothing and produces no results.  Every queued URL is a
`normalize_url` output, whose host is lower-cased, while `base_host` is
taken verbatim from `urlparse(start_url).netloc`; the string-equality
in-domain check therefore rejects every dequeued URL — including the
normalized start URL itself — as off-domain.  Concretely,
`urlparse('https://WWW.Example.com/').netloc` is `WWW.Example.com` while
the normalized start URL's host is `www.example.com`. -/
theorem claim_C10 (P : CrawlParams) (q0 : List PyStr) (w : Nat)
    (hup : ∃ c ∈ P.baseHost, 65 ≤ c ∧ c ≤ 90)
    (hq0 : ∀ l ∈ q0, NormOutProducts l)
    (s : CrawlState) (hs : Reach P q0 w s) :
    (s.fetched = [] ∧ s.results = []) ∧
      (pyUrlparse [] (pystr "https://WWW.Example.com/")).netloc = pystr "WWW.Example.com" ∧
      normalizeUrlProducts (pystr "https://WWW.Example.com/") none
        = some (pystr "https://www.example.com/") := by
  obtain ⟨h1, h2, -, -⟩ := reach_upperHost hup hq0 hs
  exact ⟨⟨h1, h2⟩, by decide, by decide⟩

def upperParams : CrawlParams :=
  { maxPages := 5, baseHost := pystr "X.com", rpLoaded := false, ignoreRobots := false,
    canFetch := fun _ => true, fetchOk := fun _ => true, pageLinks := fun _ => [] }

/-- C10 (witness): a concrete crawl whose seed host `X.com` keeps its
upper-case letter fetches nothing. -/
theorem claim_C10_witness :
    ((initState [pystr "http://x.com/"] 1).fetched = [] ∧
        (initState [pystr "http://x.com/"] 1).results = []) ∧
      (pyUrlparse [] (pystr "https://WWW.Example.com/")).netloc = pystr "WWW.Example.com" ∧
      normalizeUrlProducts (pystr "https://WWW.Example.com/") none
        = some (pystr "https://www.example.com/") :=
  claim_C10 upperParams [pystr "http://x.com/"] 1 ⟨88, by decide, by decide⟩
    (fun l hl => by
      have hl' : l = pystr "http://x.com/" := by simpa using hl
      subst hl'
      exact ⟨pystr "http://X.com/", none, by decide⟩)
    _ Reach.init

/-! ## Claim C7: keyword crawler pacing (`keyword_crawler.py`)

Delays are modelled as rationals: the claim is about the `max` preference
and the division by the worker count, both exact in `ℚ`. -/

/-- `KeywordCrawler.__init__`: `self.delay = delay; if
self.robots.crawl_delay is not None: self.delay = max(self.delay,
float(self.robots.crawl_delay))`. -/
def kcEffectiveDelay (delay : ℚ) (crawlDelay : Option ℚ) : ℚ :=
  match crawlDelay with
  | some c => max delay c
  | none => delay

/-- `self.concurrency = max(1, concurrency)`. -/
def kcConcurrency (concurrency : ℤ) : ℤ := max 1 concurrency

/-- The politeness sleep between consecutive task submissions in
`KeywordCrawler.run`: `time.sleep(self.delay / max(1, self.concurrency))`. -/
def kcInterSubmitSleep (delay : ℚ) (crawlDelay : Option ℚ) (concurrency : ℤ) : ℚ :=
  kcEffectiveDelay delay crawlDelay / ((max 1 (kcConcurrency concurrency) : ℤ) : ℚ)

/-- C7 (counterexample): with configured delay 1s, robots crawl-delay 2s
and concurrency 5, the effective delay is correctly `max(1, 2) = 2`, but
consecutive submissions are separated by only `2/5` second — strictly less
than the claimed `max(d, c)` pacing. -/
theorem claim_C7_counterexample :
    kcEffectiveDelay 1 (some 2) = 2 ∧
      kcInterSubmitSleep 1 (some 2) 5 = 2 / 5 ∧
      kcInterSubmitSleep 1 (some 2) 5 < kcEffectiveDelay 1 (some 2) := by
  refine ⟨?_, ?_, ?_⟩ <;>
    norm_num [kcEffectiveDelay, kcInterSubmitSleep, kcConcurrency]

/-- C7 (amended): `__init__` raises the configured delay to
`max(configured, crawl_delay)` as the spec says, but `run` sleeps that
effective delay **divided by the concurrency** between consecutive
submissions.  The claimed "at least max(d, c) seconds between requests"
holds only for concurrency ≤ 1; for concurrency ≥ 2 and a positive
effective delay the gap is strictly smaller. -/
theorem claim_C7 (d c : ℚ) (w : ℤ) :
    kcEffectiveDelay d (some c) = max d c ∧
      (w ≤ 1 → kcInterSubmitSleep d (some c) w = max d c) ∧
      (2 ≤ w → 0 < max d c → kcInterSubmitSleep d (some c) w < max d c) := by
  refine ⟨rfl, ?_, ?_⟩
  · intro hw
    have h1 : kcConcurrency w = 1 := by
      rw [kcConcurrency]
      omega
    rw [kcInterSubmitSleep, h1]
    norm_num
    rfl
  · intro hw hpos
    have h1 : kcConcurrency w = w := by
      rw [kcConcurrency]
      omega
    rw [kcInterSubmitSleep, h1]
    have hm : (max 1 w : ℤ) = w := by omega
    rw [hm]
    have hw1 : (1 : ℚ) < ((w : ℤ) : ℚ) := by
      exact_mod_cast (by omega : (1 : ℤ) < w)
    show kcEffectiveDelay d (some c) / ((w : ℤ) : ℚ) < max d c
    exact div_lt_self hpos hw1

/-- C7 (witness): the amended pacing at concurrency 1 and 3. -/
theorem claim_C7_witness :
    kcInterSubmitSleep 3 (some 2) 1 = max 3 2 ∧
      kcInterSubmitSleep 3 (some 2) 3 < max 3 2 :=
  ⟨(claim_C7 3 2 1).2.1 (by norm_num),
   (claim_C7 3 2 3).2.2 (by norm_num) (by norm_num)⟩

/-! ## Claim C8: render-fetch error handling (`fetch_with_playwright`) -/

inductive PwErr where
  | timeout
  | other
deriving Repr, DecidableEq

/-- Environment oracle of one `fetch_with_playwright` call (both crawler
copies have the same `try`/`except` shape): whether each fallible awaited
operation in the `try` body raises, and what the protected collectors
harvest.  The interaction steps (scroll, hover, event dispatch, clicks) sit
in their own swallowing `try/except` blocks and cannot abort the call. -/
structure PwOracle where
  headersErr : Option PwErr
  gotoErr : Option PwErr
  collectedAttrs : Option (List PyStr)
  scriptCandidates : Option (List PyStr)
  contentErr : Option PwErr
  pageContent : PyStr

/-- The `try` body: each fallible step either raises (`Except.error`,
with `page.close()` not yet called at that point) or proceeds; the success
path closes the page and returns the content plus the deduplicated raw
candidates. -/
def fetchWithPlaywrightBody (o : PwOracle) : Except PwErr (PyStr × List PyStr) × Bool :=
  match o.headersErr with
  | some e => (Except.error e, false)
  | none =>
    match o.gotoErr with
    | some e => (Except.error e, false)
    | none =>
      let collected := (o.collectedAttrs.getD []) ++ (o.scriptCandidates.getD [])
      match o.contentErr with
      | some e => (Except.error e, false)
      | none => (Except.ok (o.pageContent, collected.dedup), true)

/-- `fetch_with_playwright`: the body under its two handlers
(`except PlaywrightTimeoutError` and `except Exception`), each of which
closes the page and returns `(None, [])`.  Second component: whether
`page.close()` was called on the taken path. -/
def fetchWithPlaywright (o : PwOracle) : (Option PyStr × List PyStr) × Bool :=
  match fetchWithPlaywrightBody o with
  | (Except.ok r, closed) => ((some r.1, r.2), closed)
  | (Except.error _, _) => ((none, []), true)

/-- C8: on every oracle — success, navigation timeout, any other raised
step — `fetch_with_playwright` calls `page.close()` on the taken path; a
`goto` failure (timeout or navigation error) yields `(None, [])`; and every
exception the body raises is converted by the handlers into a `(None, [])`
return rather than propagating to the caller. -/
theorem claim_C8 (o : PwOracle) :
    (fetchWithPlaywright o).2 = true ∧
      (∀ e, o.gotoErr = some e → (fetchWithPlaywright o).1 = (none, [])) ∧
      (∀ e, (fetchWithPlaywrightBody o).1 = Except.error e →
        (fetchWithPlaywright o).1 = (none, [])) := by
  unfold fetchWithPlaywright fetchWithPlaywrightBody
  rcases o with ⟨he, ge, ca, sc, ce, pc⟩
  cases he <;> cases ge <;> cases ce <;> simp

/-- C8 (witness): a navigation timeout returns `(None, [])` with the page
closed. -/
theorem claim_C8_witness :
    (fetchWithPlaywright
        ⟨none, some PwErr.timeout, none, none, none, []⟩).2 = true ∧
      (fetchWithPlaywright
        ⟨none, some PwErr.timeout, none, none, none, []⟩).1 = (none, []) :=
  ⟨(claim_C8 ⟨none, some PwErr.timeout, none, none, none, []⟩).1,
   (claim_C8 ⟨none, some PwErr.timeout, none, none, none, []⟩).2.1 PwErr.timeout rfl⟩

/-! ## Claim C9: sitemap resolution -/

/-- Abstract parsed sitemap XML: root tag, the `<sitemap><loc>` texts, the
`<url><loc>` texts, and every `<loc>` text (the fallback node set).  The
namespace-qualified finds of `parse_sitemap` read the same loc lists. -/
structure SitemapDoc where
  tag : PyStr
  sitemapLocs : List PyStr
  urlLocs : List PyStr
  allLocs : List PyStr
deriving Repr, DecidableEq

/-- The network/XML environment: the finitely many sitemap URLs that fetch
and parse successfully, with their documents. -/
def SitemapWorld := List (PyStr × SitemapDoc)

def smLookup (w : SitemapWorld) (u : PyStr) : Option SitemapDoc :=
  (w.find? fun kv => kv.1 = u).map Prod.snd

/-- `fetch_sitemap_urls` of `python_web_crawler_products.py`, in a fuel
model (`none` = the recursion exceeds the given depth; the Python code
recurses with no seen-set at all).  Fetch or XML-parse failure yields
`some []`; a `sitemapindex` root recurses into every `<sitemap><loc>`; any
other root collects the `<url><loc>` texts; an empty collection falls back
to all `<loc>` nodes. -/
def fetchSitemapUrls (w : SitemapWorld) : Nat → PyStr → Option (List PyStr)
  | 0, _ => none
  | fuel + 1, u =>
    match smLookup w u with
    | none => some []
    | some doc =>
      if (pystr "sitemapindex").isSuffixOf (pyLower doc.tag) then
        match doc.sitemapLocs.mapM' (fetchSitemapUrls w fuel) with
        | none => none
        | some rs => some (if rs.flatten = [] then doc.allLocs else rs.flatten)
      else
        some (if doc.urlLocs = [] then doc.allLocs else doc.urlLocs)

/-- Non-termination of `fetch_sitemap_urls` in the fuel model: no recursion
depth yields a result. -/
def FetchSitemapDiverges (w : SitemapWorld) (u : PyStr) : Prop :=
  ∀ fuel, fetchSitemapUrls w fuel u = none

def loopDoc : SitemapDoc :=
  { tag := pystr "sitemapindex"
    sitemapLocs := [pystr "http://x.com/sitemap.xml"]
    urlLocs := []
    allLocs := [pystr "http://x.com/sitemap.xml"] }

def loopWorld : SitemapWorld := [(pystr "http://x.com/sitemap.xml", loopDoc)]

/-- C9 (counterexample): `fetch_sitemap_urls` keeps no record of the
sitemap URLs it has already expanded, so a sitemap index whose
`<sitemap><loc>` points back at itself makes the resolution recurse
forever: in the fuel model, no finite depth suffices. -/
theorem claim_C9_counterexample :
    FetchSitemapDiverges loopWorld (pystr "http://x.com/sitemap.xml") := by
  intro fuel
  induction fuel with
  | zero => rfl
  | succ n ih =>
    have hstep : fetchSitemapUrls loopWorld (n + 1) (pystr "http://x.com/sitemap.xml") =
        match [pystr "http://x.com/sitemap.xml"].mapM' (fetchSitemapUrls loopWorld n) with
        | none => none
        | some rs => some (if rs.flatten = [] then loopDoc.allLocs else rs.flatten) := rfl
    have hm : [pystr "http://x.com/sitemap.xml"].mapM' (fetchSitemapUrls loopWorld n) = none := by
      simp [List.mapM'_cons, ih]
    rw [hstep, hm]

mutual

/-- `parse_sitemap` of `notebook/robots_crawler.py`: the same recursion but
threading the mutable `seen` set (checked and extended before the request),
instrumented with the trace `tr` of sitemap URLs actually requested, in the
same fuel model. -/
def parseSitemap (w : SitemapWorld) : Nat → PyStr → List PyStr → List PyStr →
    Option (List PyStr × List PyStr × List PyStr)
  | 0, _, _, _ => none
  | fuel + 1, u, seen, tr =>
    if u ∈ seen then some ([], seen, tr)
    else
      match smLookup w u with
      | none => some ([], u :: seen, tr ++ [u])
      | some doc =>
        parseSitemapChildren w fuel doc.sitemapLocs (doc.urlLocs, u :: seen, tr ++ [u])
termination_by fuel u seen tr => (fuel, 0)

/-- The `for s in root.findall('.//sm:sitemap/sm:loc'): urls.extend(
parse_sitemap(nested, seen))` loop, with accumulator
`(urls so far, seen, trace)`. -/
def parseSitemapChildren (w : SitemapWorld) (fuel : Nat) :
    List PyStr → List PyStr × List PyStr × List PyStr →
    Option (List PyStr × List PyStr × List PyStr)
  | [], acc => some acc
  | c :: cs, acc =>
    match parseSitemap w fuel c acc.2.1 acc.2.2 with
    | none => none
    | some r => parseSitemapChildren w fuel cs (acc.1 ++ r.1, r.2.1, r.2.2)
termination_by locs acc => (fuel, locs.length + 1)

end

/-- The number of fetchable sitemap URLs not yet seen: the recursion
measure of `parse_sitemap`. -/
def keysLeft (w : SitemapWorld) (seen : List PyStr) : Nat :=
  ((w.map Prod.fst).filter fun k => k ∉ seen).length

lemma nodup_append_one {tr : List PyStr} {u : PyStr} (h1 : tr.Nodup) (hu : u ∉ tr) :
    (tr ++ [u]).Nodup := by
  simp [List.nodup_append, h1, hu]

/-- Seen-extension and trace discipline of one `parse_sitemap` call. -/
def smExt (seen tr : List PyStr) (r : List PyStr × List PyStr × List PyStr) : Prop :=
  (∀ x ∈ seen, x ∈ r.2.1) ∧
    (tr.Nodup → (∀ x ∈ tr, x ∈ seen) → r.2.2.Nodup ∧ ∀ x ∈ r.2.2, x ∈ r.2.1)

lemma parseSitemap_ext (w : SitemapWorld) :
    ∀ fuel u seen tr r, parseSitemap w fuel u seen tr = some r → smExt seen tr r := by
  intro fuel
  induction fuel with
  | zero =>
    intro u seen tr r h
    simp only [parseSitemap] at h
    exact Option.noConfusion h
  | succ n ih =>
    have ihc : ∀ locs acc r, parseSitemapChildren w n locs acc = some r →
        smExt acc.2.1 acc.2.2 r := by
      intro locs
      induction locs with
      | nil =>
        intro acc r h
        simp only [parseSitemapChildren] at h
        cases h
        exact ⟨fun x hx => hx, fun h1 h2 => ⟨h1, h2⟩⟩
      | cons c cs ihl =>
        intro acc r h
        simp only [parseSitemapChildren] at h
        cases hc : parseSitemap w n c acc.2.1 acc.2.2 with
        | none =>
          rw [hc] at h
          cases h
        | some r1 =>
          rw [hc] at h
          have e1 := ih c acc.2.1 acc.2.2 r1 hc
          have e2 := ihl (acc.1 ++ r1.1, r1.2.1, r1.2.2) r h
          refine ⟨fun x hx => e2.1 x (e1.1 x hx), fun h1 h2 => ?_⟩
          obtain ⟨hn1, hs1⟩ := e1.2 h1 h2
          exact e2.2 hn1 hs1
    intro u seen tr r h
    simp only [parseSitemap] at h
    by_cases hu : u ∈ seen
    · rw [if_pos hu] at h
      cases h
      exact ⟨fun x hx => hx, fun h1 h2 => ⟨h1, h2⟩⟩
    · rw [if_neg hu] at h
      have hstep : ∀ h1 : tr.Nodup, (∀ x ∈ tr, x ∈ seen) →
          (tr ++ [u]).Nodup ∧ ∀ x ∈ tr ++ [u], x ∈ u :: seen := by
        intro h1 h2
        refine ⟨nodup_append_one h1 fun hm => hu (h2 u hm), ?_⟩
        intro x hx
        rcases List.mem_append.mp hx with hm | hm
        · exact List.mem_cons_of_mem u (h2 x hm)
        · simp only [List.mem_singleton] at hm
          subst hm
          exact List.mem_cons_self _ _
      cases hl : smLookup w u with
      | none =>
        rw [hl] at h
        cases h
        exact ⟨fun x hx => List.mem_cons_of_mem u hx, fun h1 h2 => hstep h1 h2⟩
      | some doc =>
        rw [hl] at h
        have e := ihc doc.sitemapLocs (doc.urlLocs, u :: seen, tr ++ [u]) r h
        refine ⟨fun x hx => e.1 x (List.mem_cons_of_mem u hx), fun h1 h2 => ?_⟩
        obtain ⟨hn1, hs1⟩ := hstep h1 h2
        exact e.2 hn1 hs1

lemma keysLeft_mono {w : SitemapWorld} {s1 s2 : List PyStr} (h : ∀ x ∈ s1, x ∈ s2) :
    keysLeft w s2 ≤ keysLeft w s1 := by
  apply List.Sublist.length_le
  apply List.monotone_filter_right
  intro a ha
  simp only [decide_eq_true_eq] at ha ⊢
  exact fun hm => ha (h a hm)

lemma length_filter_lt_of {l : List PyStr} {p q : PyStr → Bool}
    (himp : ∀ x, q x = true → p x = true) {u : PyStr} (hu : u ∈ l)
    (hpu : p u = true) (hqu : q u = false) :
    (l.filter q).length < (l.filter p).length := by
  induction l with
  | nil => cases hu
  | cons a t iht =>
    have hle : (t.filter q).length ≤ (t.filter p).length :=
      (List.monotone_filter_right t himp).length_le
    rcases List.mem_cons.mp hu with rfl | hmem
    · rw [List.filter_cons, List.filter_cons, hpu, hqu]
      simpa using Nat.lt_succ_of_le hle
    · rw [List.filter_cons, List.filter_cons]
      by_cases hq : q a = true
      · rw [if_pos hq, if_pos (himp a hq)]
        simp only [List.length_cons]
        exact Nat.succ_lt_succ (iht hmem)
      · rw [if_neg hq]
        by_cases hp : p a = true
        · rw [if_pos hp]
          exact Nat.lt_succ_of_lt (iht hmem)
        · rw [if_neg hp]
          exact iht hmem

lemma smLookup_mem_keys {w : SitemapWorld} {u : PyStr} {doc : SitemapDoc}
    (h : smLookup w u = some doc) : u ∈ w.map Prod.fst := by
  rw [smLookup] at h
  cases hf : w.find? (fun kv => kv.1 = u) with
  | none =>
    rw [hf] at h
    cases h
  | some kv =>
    have h1 := List.find?_some hf
    have h2 := List.mem_of_find?_eq_some hf
    have h3 : kv.1 = u := by simpa using h1
    subst h3
    exact List.mem_map.mpr ⟨kv, h2, rfl⟩

lemma keysLeft_cons_lt {w : SitemapWorld} {u : PyStr} {seen : List PyStr}
    (hu : u ∈ w.map Prod.fst) (hn : u ∉ seen) :
    keysLeft w (u :: seen) < keysLeft w seen := by
  refine length_filter_lt_of ?_ hu ?_ ?_
  · intro x hx
    simp only [decide_eq_true_eq] at hx ⊢
    intro hm
    exact hx (List.mem_cons_of_mem u hm)
  · simpa using hn
  · simp

lemma parseSitemap_terminates (w : SitemapWorld) :
    ∀ fuel u seen tr, keysLeft w seen < fuel →
      ∃ r, parseSitemap w fuel u seen tr = some r := by
  intro fuel
  induction fuel with
  | zero =>
    intro u seen tr h
    omega
  | succ n ih =>
    have ihc : ∀ locs acc, keysLeft w acc.2.1 < n →
        ∃ r, parseSitemapChildren w n locs acc = some r := by
      intro locs
      induction locs with
      | nil =>
        intro acc h
        exact ⟨acc, by simp [parseSitemapChildren]⟩
      | cons c cs ihl =>
        intro acc h
        obtain ⟨r1, hr1⟩ := ih c acc.2.1 acc.2.2 h
        have hext := (parseSitemap_ext w n c acc.2.1 acc.2.2 r1 hr1).1
        have h2 : keysLeft w r1.2.1 < n := Nat.lt_of_le_of_lt (keysLeft_mono hext) h
        obtain ⟨r, hr⟩ := ihl (acc.1 ++ r1.1, r1.2.1, r1.2.2) h2
        refine ⟨r, ?_⟩
        simp only [parseSitemapChildren]
        rw [hr1]
        exact hr
    intro u seen tr h
    by_cases hu : u ∈ seen
    · exact ⟨([], seen, tr), by simp [parseSitemap, hu]⟩
    · cases hl : smLookup w u with
      | none => exact ⟨([], u :: seen, tr ++ [u]), by simp [parseSitemap, hu, hl]⟩
      | some doc =>
        have hk : u ∈ w.map Prod.fst := smLookup_mem_keys hl
        have hlt : keysLeft w (u :: seen) < keysLeft w seen := keysLeft_cons_lt hk hu
        have hn : keysLeft w (u :: seen) < n := by omega
        obtain ⟨r, hr⟩ := ihc doc.sitemapLocs (doc.urlLocs, u :: seen, tr ++ [u]) hn
        refine ⟨r, ?_⟩
        simp only [parseSitemap, if_neg hu, hl]
        exact hr

def sampleIndex : SitemapDoc :=
  { tag := pystr "sitemapindex"
    sitemapLocs := [pystr "http://s.com/a.xml", pystr "http://s.com/b.xml"]
    urlLocs := []
    allLocs := [pystr "http://s.com/a.xml", pystr "http://s.com/b.xml"] }

def sampleChild (us : List PyStr) : SitemapDoc :=
  { tag := pystr "urlset"
    sitemapLocs := []
    urlLocs := us
    allLocs := us }

/-- The spec's sitemap-expansion scenario: an index pointing at two child
sitemaps of three `<url><loc>` entries each. -/
def sampleWorld : SitemapWorld :=
  [ (pystr "http://s.com/s.xml", sampleIndex),
    (pystr "http://s.com/a.xml",
      sampleChild [pystr "http://s.com/p1", pystr "http://s.com/p2", pystr "http://s.com/p3"]),
    (pystr "http://s.com/b.xml",
      sampleChild [pystr "http://s.com/q1", pystr "http://s.com/q2", pystr "http://s.com/q3"]) ]

/-- C9: the at-most-once / termination claim holds for `parse_sitemap` of
`notebook/robots_crawler.py` (whose seen set is checked and extended before
each request): on every sitemap world and start URL it terminates within
`keysLeft w [] + 1` recursion depth, and the trace of sitemap URLs it
actually requests is duplicate-free; moreover on the spec's scenario — an
index with two child sitemaps of three URLs each — resolution returns the
six seed URLs.  (It fails for `fetch_sitemap_urls` of
`python_web_crawler_products.py`, which keeps no seen set: see the
counterexample.) -/
theorem claim_C9 (w : SitemapWorld) (u : PyStr) :
    (∃ urls seen tr, parseSitemap w (keysLeft w [] + 1) u [] [] = some (urls, seen, tr) ∧
        tr.Nodup) ∧
      fetchSitemapUrls sampleWorld 2 (pystr "http://s.com/s.xml") =
        some [pystr "http://s.com/p1", pystr "http://s.com/p2", pystr "http://s.com/p3",
          pystr "http://s.com/q1", pystr "http://s.com/q2", pystr "http://s.com/q3"] := by
  constructor
  · obtain ⟨r, hr⟩ :=
      parseSitemap_terminates w (keysLeft w [] + 1) u [] [] (Nat.lt_succ_self _)
    have he := parseSitemap_ext w (keysLeft w [] + 1) u [] [] r hr
    obtain ⟨hn, -⟩ := he.2 List.nodup_nil (fun x hx => absurd hx (List.not_mem_nil x))
    exact ⟨r.1, r.2.1, r.2.2, hr, hn⟩
  · decide
